import Mathlib

/-!
NcHIPertFirstOrder: system assembly of the first order perturbation solver.

A shallow embedding of `numcosmo/perturbations/nc_hipert_first_order.c`:
the padding of dependency lists, the resolution of symbolic dependencies,
the assembly of the variable table and the reordering with its bandwidth
scan; the registry of components with the setters of the gauge and of the
gravity provider; the calls of the right-hand side evaluator on the
providers; and the preparation of the integrator backends.

Conventions.  A `GArray` of `gint` is a `List Int`.  The sum that
`_nc_hipert_first_order_add_pad` stores in an entry is reduced to the 32 bits
of a `gint` (`gint_wrap`): the entries come from the providers and can be any
`gint`.  The other `gint` arithmetic of the file is on positions of the
table, bounded by the number of variables of the system, and is integer
arithmetic.  `g_error` and `g_assert_not_reached` abort the process:
they are the two fatal outcomes of `Outcome`.  Loops that the source does
not bound are run with a fuel counter and `Outcome.out_of_fuel` records that
the counter ran out before the loop ended.  The providers (gravity,
components) and SUNDIALS are outside the file: what they answer is a
parameter, and a backend handle is the list of the calls made on it.
-/

namespace NcHIPertFirstOrder

/-- The values of the enumeration `NcHIPertGravSElem`, the placeholders of a
dependency list.  The enumeration is declared in `nc_hipert_grav.h`; its
values are taken as a parameter. -/
structure NcHIPertGravSElem where
  PHI : Int
  DSIGMA : Int
  PSI : Int
  DOTPSI : Int
  DRHO : Int
  RHOPPV : Int
  DP : Int
  DPI : Int

/-- The eight codes of the enumeration, in the order of the `switch` of
`_nc_hipert_first_order_solve_deps`. -/
def NcHIPertGravSElem.codes (c : NcHIPertGravSElem) : List Int :=
  [c.PHI, c.DSIGMA, c.PSI, c.DOTPSI, c.DRHO, c.RHOPPV, c.DP, c.DPI]

/-- What the source relies on about the enumeration: the codes are negative
(an entry is a placeholder exactly when `v < 0`) and pairwise different (they
are the `case` labels of one `switch`). -/
def NcHIPertGravSElem.WellFormed (c : NcHIPertGravSElem) : Prop :=
  (∀ v ∈ c.codes, v < 0) ∧ c.codes.Nodup

instance (c : NcHIPertGravSElem) : Decidable c.WellFormed := by
  unfold NcHIPertGravSElem.WellFormed
  exact inferInstance

/-- The fields of `NcHIPertGravInfo` read by the resolver. -/
structure NcHIPertGravInfo where
  phi_deps : List Int
  dsigma_deps : List Int
  psi_deps : List Int
  dotpsi_deps : List Int

/-- The fields of `NcHIPertGravTScalarInfo` read by the resolver. -/
structure NcHIPertGravTScalarInfo where
  drho_deps : List Int
  rhoppv_deps : List Int
  dp_deps : List Int
  dPi_deps : List Int

/-- How a run of the resolver ends. -/
inductive Outcome (α : Type) where
  | done (a : α)
  | too_many_levels
  | not_reached
  | out_of_fuel
  deriving DecidableEq, Repr

/-- The value that a `gint` holds after the integer `x` is stored in it: `x`
itself when `G_MININT <= x <= G_MAXINT`, otherwise `x` reduced modulo `2^32`
into that range (a signed overflow is undefined in C; the two's complement
wrap is what the compiled code gives). -/
def gint_wrap (x : Int) : Int := (x + 2147483648) % 4294967296 - 2147483648

/-- `_nc_hipert_first_order_add_pad`: nothing is done for `pad == 0`, otherwise
`g_array_index (a, gint, i) += pad` for every entry that is `>= 0`, the sum
being stored in the `gint` entry. -/
def _nc_hipert_first_order_add_pad (a : List Int) (pad : Int) : List Int :=
  if pad = 0 then a
  else a.map (fun x => if x ≥ 0 then gint_wrap (x + pad) else x)

/-- The `switch (v)` of `_nc_hipert_first_order_solve_deps`: the array that is
appended for the placeholder `v`, `none` for the `default` case. -/
def solve_deps_switch (c : NcHIPertGravSElem) (ginfo : NcHIPertGravInfo)
    (Tsinfo : NcHIPertGravTScalarInfo) (v : Int) : Option (List Int) :=
  if v = c.PHI then some ginfo.phi_deps
  else if v = c.DSIGMA then some ginfo.dsigma_deps
  else if v = c.PSI then some ginfo.psi_deps
  else if v = c.DOTPSI then some ginfo.dotpsi_deps
  else if v = c.DRHO then some Tsinfo.drho_deps
  else if v = c.RHOPPV then some Tsinfo.rhoppv_deps
  else if v = c.DP then some Tsinfo.dp_deps
  else if v = c.DPI then some Tsinfo.dPi_deps
  else none

/-- The scan `for (i = 0; i < deps->len; )` of
`_nc_hipert_first_order_solve_deps`, from the state `(deps, i, subs)`.  An
entry `v < 0` is removed at `i` and its expansion is appended to the end of
`deps`, with `i` unchanged; otherwise `i` advances.  The result is the array
and the flag `subs` when the scan ends. -/
def solve_deps_scan (c : NcHIPertGravSElem) (ginfo : NcHIPertGravInfo)
    (Tsinfo : NcHIPertGravTScalarInfo) :
    Nat → List Int → Nat → Bool → Outcome (List Int × Bool)
  | 0, _, _, _ => .out_of_fuel
  | fuel + 1, deps, i, subs =>
    match deps[i]? with
    | none => .done (deps, subs)
    | some v =>
      if v < 0 then
        match solve_deps_switch c ginfo Tsinfo v with
        | some b => solve_deps_scan c ginfo Tsinfo fuel (deps.eraseIdx i ++ b) i true
        | none => .not_reached
      else solve_deps_scan c ginfo Tsinfo fuel deps (i + 1) subs

/-- The loop `for (i = 1; i < deps->len; )` that removes adjacent equal
entries, from the state `(deps, i, last)`.  Every iteration either removes an
entry or advances `i`, so `deps->len - i` iterations end it; `n` counts the
iterations that are left. -/
def solve_deps_uniq : Nat → List Int → Nat → Int → List Int
  | 0, deps, _, _ => deps
  | n + 1, deps, i, last =>
    match deps[i]? with
    | none => deps
    | some v =>
      if v = last then solve_deps_uniq n (deps.eraseIdx i) i last
      else solve_deps_uniq n deps (i + 1) v

/-- The `else` branch of `_nc_hipert_first_order_solve_deps`: `g_array_sort`
with `__cmp_gint` (the ascending order of `gint`, a total order, so the sorted
array is determined) and, if `deps->len > 1`, the removal of adjacent equal
entries. -/
def solve_deps_sort_uniq (deps : List Int) : List Int :=
  let sorted := deps.insertionSort (fun a b => a ≤ b)
  match sorted with
  | [] => sorted
  | last :: _ => if sorted.length > 1 then solve_deps_uniq sorted.length sorted 1 last else sorted

/-- `_nc_hipert_first_order_solve_deps (fo, ginfo, Tsinfo, deps, r)`.  The
fuel bounds the iterations of the scan of each level. -/
def _nc_hipert_first_order_solve_deps (c : NcHIPertGravSElem) (ginfo : NcHIPertGravInfo)
    (Tsinfo : NcHIPertGravTScalarInfo) : Nat → List Int → Nat → Outcome (List Int)
  | 0, _, _ => .out_of_fuel
  | fuel + 1, deps, r =>
    if r > 9 then .too_many_levels
    else
      match solve_deps_scan c ginfo Tsinfo fuel deps 0 false with
      | .done (deps1, subs) =>
        if subs then _nc_hipert_first_order_solve_deps c ginfo Tsinfo fuel deps1 (r + 1)
        else .done (solve_deps_sort_uniq deps1)
      | .too_many_levels => .too_many_levels
      | .not_reached => .not_reached
      | .out_of_fuel => .out_of_fuel

/-- The scan of `solve_deps_scan` with the array split at `i`: `kept` holds the
entries before `i`, `rest` the entries from `i` on. -/
def scan_split (c : NcHIPertGravSElem) (ginfo : NcHIPertGravInfo)
    (Tsinfo : NcHIPertGravTScalarInfo) :
    Nat → List Int → List Int → Bool → Outcome (List Int × Bool)
  | 0, _, _, _ => .out_of_fuel
  | _ + 1, kept, [], subs => .done (kept, subs)
  | fuel + 1, kept, v :: rest, subs =>
    if v < 0 then
      match solve_deps_switch c ginfo Tsinfo v with
      | some b => scan_split c ginfo Tsinfo fuel kept (rest ++ b) true
      | none => .not_reached
    else scan_split c ginfo Tsinfo fuel (kept ++ [v]) rest subs

/-- The loop of `solve_deps_uniq` on the entries from `i` on: what is left of
them when the entry before them is `last`. -/
def uniq_split : Int → List Int → List Int
  | _, [] => []
  | last, v :: rest => if v = last then uniq_split last rest else v :: uniq_split v rest

/-- The expansion of a placeholder as the specification words it: PHI, DSIGMA,
PSI and DOTPSI expand from the gravity info table, DRHO, RHOPPV, DP and DPI
from the aggregated component info table. -/
inductive Expands (c : NcHIPertGravSElem) (ginfo : NcHIPertGravInfo)
    (Tsinfo : NcHIPertGravTScalarInfo) : Int → List Int → Prop where
  | phi : Expands c ginfo Tsinfo c.PHI ginfo.phi_deps
  | dsigma : Expands c ginfo Tsinfo c.DSIGMA ginfo.dsigma_deps
  | psi : Expands c ginfo Tsinfo c.PSI ginfo.psi_deps
  | dotpsi : Expands c ginfo Tsinfo c.DOTPSI ginfo.dotpsi_deps
  | drho : Expands c ginfo Tsinfo c.DRHO Tsinfo.drho_deps
  | rhoppv : Expands c ginfo Tsinfo c.RHOPPV Tsinfo.rhoppv_deps
  | dp : Expands c ginfo Tsinfo c.DP Tsinfo.dp_deps
  | dpi : Expands c ginfo Tsinfo c.DPI Tsinfo.dPi_deps

/-- The entry `y` is reached from the entry `x` by expanding placeholders
repeatedly (no expansion at all included). -/
inductive Reaches (c : NcHIPertGravSElem) (ginfo : NcHIPertGravInfo)
    (Tsinfo : NcHIPertGravTScalarInfo) : Int → Int → Prop where
  | here (x : Int) : Reaches c ginfo Tsinfo x x
  | step {p q y : Int} {e : List Int} :
      Expands c ginfo Tsinfo p e → q ∈ e → Reaches c ginfo Tsinfo q y →
      Reaches c ginfo Tsinfo p y

/-- The dependency closure of a dependency list, as the specification words
it: the concrete indices of the list together with every concrete index
reached from an entry of the list by expanding placeholders. -/
def InClosure (c : NcHIPertGravSElem) (ginfo : NcHIPertGravInfo)
    (Tsinfo : NcHIPertGravTScalarInfo) (deps : List Int) (x : Int) : Prop :=
  0 ≤ x ∧ ∃ d ∈ deps, Reaches c ginfo Tsinfo d x

/-- The eight arrays of the two info tables. -/
def info_arrays (ginfo : NcHIPertGravInfo) (Tsinfo : NcHIPertGravTScalarInfo) : List (List Int) :=
  [ginfo.phi_deps, ginfo.dsigma_deps, ginfo.psi_deps, ginfo.dotpsi_deps,
   Tsinfo.drho_deps, Tsinfo.rhoppv_deps, Tsinfo.dp_deps, Tsinfo.dPi_deps]

/-- The entries kept by one pass of the scan over `l`. -/
def pass_kept (l : List Int) : List Int := l.filter (fun v => decide (0 ≤ v))

/-- The entries appended by one pass of the scan over `l`. -/
def pass_new (c : NcHIPertGravSElem) (ginfo : NcHIPertGravInfo)
    (Tsinfo : NcHIPertGravTScalarInfo) : List Int → List Int
  | [] => []
  | v :: l =>
    (if v < 0 then (solve_deps_switch c ginfo Tsinfo v).getD [] else [])
      ++ pass_new c ginfo Tsinfo l

/-- Sample values of the enumeration. -/
def sample_codes : NcHIPertGravSElem := ⟨-1, -2, -3, -4, -5, -6, -7, -8⟩

/-- A gravity info table with acyclic expansions. -/
def sample_ginfo : NcHIPertGravInfo := ⟨[0, -5], [-1], [2, 0], []⟩

/-- A component info table with concrete expansions. -/
def sample_Tsinfo : NcHIPertGravTScalarInfo := ⟨[3, 0, 3], [], [1], []⟩

/-- A gravity info table whose PHI expansion is the list `[PHI]`. -/
def cyclic_ginfo : NcHIPertGravInfo := ⟨[-1], [], [], []⟩

/-- A rank of the placeholders of `sample_ginfo` that decreases along
expansions. -/
def sample_rank (v : Int) : Nat :=
  if v = -2 then 3 else if v = -1 then 2 else if v = -3 then 1 else if v = -5 then 1 else 0

/-- `NcHIPertFirstOrderVar`: the owner `src`, the position `index` and the
dependency array `deps` of one variable. -/
structure NcHIPertFirstOrderVar where
  src : Int
  index : Int
  deps : List Int
  deriving DecidableEq, Repr

instance : Inhabited NcHIPertFirstOrderVar := ⟨⟨0, 0, []⟩⟩

/-- What `_nc_hipert_first_order_prepare_internal` asks of the gravity provider
(`nc_hipert_grav_ndyn_var`, `nc_hipert_grav_get_deps`,
`nc_hipert_grav_get_G_scalar_info`); the provider is a parameter of the system,
`get_deps` hands out a fresh array at every call. -/
structure NcHIPertGrav where
  ndyn_var : Nat
  get_deps : Nat → List Int
  get_G_scalar_info : NcHIPertGravInfo

/-- What `_nc_hipert_first_order_prepare_internal` asks of a component
(`nc_hipert_comp_ndyn_var`, `nc_hipert_comp_get_deps`,
`nc_hipert_comp_get_T_scalar_info`) and what
`nc_hipert_first_order_add_comp` asks of it (`nc_hipert_comp_get_id`, the type
check `NC_IS_HIPERT_GRAV`); the component is a parameter of the system,
`get_deps` hands out a fresh array at every call. -/
structure NcHIPertComp where
  ndyn_var : Nat
  get_deps : Nat → List Int
  get_T_scalar_info : NcHIPertGravTScalarInfo
  id : Int
  is_grav : Bool

/-- Modelled from the spec: `nc_hipert_grav_T_scalar_info_new` (its source,
`nc_hipert_grav.c`, is not at hand).  The aggregated component info table
starts empty. -/
def nc_hipert_grav_T_scalar_info_new : NcHIPertGravTScalarInfo := ⟨[], [], [], []⟩

/-- Modelled from the spec: `nc_hipert_grav_T_scalar_info_add_pad` (its
source, `nc_hipert_grav.c`, is not at hand).  The un-padded indices of a
component's table are offset by the count of variables already appended,
placeholders are left as they are. -/
def nc_hipert_grav_T_scalar_info_add_pad (Tsinfo : NcHIPertGravTScalarInfo) (pad : Int) :
    NcHIPertGravTScalarInfo :=
  ⟨_nc_hipert_first_order_add_pad Tsinfo.drho_deps pad,
   _nc_hipert_first_order_add_pad Tsinfo.rhoppv_deps pad,
   _nc_hipert_first_order_add_pad Tsinfo.dp_deps pad,
   _nc_hipert_first_order_add_pad Tsinfo.dPi_deps pad⟩

/-- Modelled from the spec: `nc_hipert_grav_T_scalar_info_append` (its source,
`nc_hipert_grav.c`, is not at hand).  A component's padded table is merged
into the aggregated component info table, array by array. -/
def nc_hipert_grav_T_scalar_info_append (Tsinfo Tsinfo_i : NcHIPertGravTScalarInfo) :
    NcHIPertGravTScalarInfo :=
  ⟨Tsinfo.drho_deps ++ Tsinfo_i.drho_deps, Tsinfo.rhoppv_deps ++ Tsinfo_i.rhoppv_deps,
   Tsinfo.dp_deps ++ Tsinfo_i.dp_deps, Tsinfo.dPi_deps ++ Tsinfo_i.dPi_deps⟩

/-- The loop `for (j = 0; j < ndyn; j++)` that appends the variables of one
block to `vars` (the loop over the gravity variables has `src = -1` and
`pad = 0`, the loop over the variables of the component of slot `i` has
`src = i`): the variable `{src, vars->len, deps_j}` with `deps_j` padded. -/
def prepare_append_vars (src : Int) (ndyn : Nat) (get_deps : Nat → List Int) (pad : Nat)
    (vars : List NcHIPertFirstOrderVar) : List NcHIPertFirstOrderVar :=
  (List.range ndyn).foldl
    (fun vs j => vs ++ [⟨src, (vs.length : Int), _nc_hipert_first_order_add_pad (get_deps j) pad⟩])
    vars

/-- The loop `for (i = 0; i < comps->len; i++)` of
`_nc_hipert_first_order_prepare_internal`, from slot `i` on, on the state
`(vars, Tsinfo, pad)`; a NULL slot is `none`. -/
def prepare_comps : List (Option NcHIPertComp) → Nat →
    List NcHIPertFirstOrderVar × NcHIPertGravTScalarInfo × Nat →
    List NcHIPertFirstOrderVar × NcHIPertGravTScalarInfo × Nat
  | [], _, st => st
  | none :: comps, i, st => prepare_comps comps (i + 1) st
  | some comp :: comps, i, (vars, Tsinfo, pad) =>
    let Tsinfo_i := nc_hipert_grav_T_scalar_info_add_pad comp.get_T_scalar_info pad
    let Tsinfo1 := nc_hipert_grav_T_scalar_info_append Tsinfo Tsinfo_i
    let vars1 := prepare_append_vars i comp.ndyn_var comp.get_deps pad vars
    prepare_comps comps (i + 1) (vars1, Tsinfo1, vars1.length)

/-- The first part of `_nc_hipert_first_order_prepare_internal` (gravity
provider present): the variable table is emptied, the gravity variables and
then the variables of every non-NULL slot are appended; the result is the
table before resolution and the aggregated component info table. -/
def prepare_assemble (grav : NcHIPertGrav) (comps : List (Option NcHIPertComp)) :
    List NcHIPertFirstOrderVar × NcHIPertGravTScalarInfo :=
  let vars0 := prepare_append_vars (-1) grav.ndyn_var grav.get_deps 0 []
  let st := prepare_comps comps 0 (vars0, nc_hipert_grav_T_scalar_info_new, vars0.length)
  (st.1, st.2.1)

/-- The number of variables of the slots `comps`: the sum of `ndyn` over the
non-NULL slots. -/
def comps_ndyn : List (Option NcHIPertComp) → Nat
  | [] => 0
  | none :: comps => comps_ndyn comps
  | some comp :: comps => comp.ndyn_var + comps_ndyn comps

/-- The owners of the variables of the slots `comps`, the first slot being
slot `i`: `ndyn` times the slot number for every non-NULL slot. -/
def comps_owners : List (Option NcHIPertComp) → Nat → List Int
  | [], _ => []
  | none :: comps, i => comps_owners comps (i + 1)
  | some comp :: comps, i => List.replicate comp.ndyn_var (i : Int) ++ comps_owners comps (i + 1)

/-- The variables of one block: `ndyn` variables of owner `src` at the
positions from `m` on, their dependency lists padded by `pad`. -/
def block_vars (src : Int) (ndyn : Nat) (get_deps : Nat → List Int) (pad m : Nat) :
    List NcHIPertFirstOrderVar :=
  (List.range ndyn).map
    (fun j => ⟨src, ((m + j : Nat) : Int), _nc_hipert_first_order_add_pad (get_deps j) pad⟩)

/-- The blocks of the slots `comps`, the first slot being slot `i`, laid out
from position `m` on. -/
def comps_blocks : List (Option NcHIPertComp) → Nat → Nat → List NcHIPertFirstOrderVar
  | [], _, _ => []
  | none :: comps, i, m => comps_blocks comps (i + 1) m
  | some comp :: comps, i, m =>
    block_vars i comp.ndyn_var comp.get_deps m m ++ comps_blocks comps (i + 1) (m + comp.ndyn_var)

/-- A call of the SUNDIALS library on a backend handle, with the integer
arguments the source passes (the times and the tolerances, floating point
values, are left out). -/
inductive SundialsCall where
  | Create
  | Init
  | SVtolerances
  | SetMaxNumSteps (mxsteps : Int)
  | Band (N : Nat) (mupper mlower : Int)
  | DlsSetDenseJacFn
  | SetLinear (timedepend : Int)
  | SetOrder (ord : Int)
  | SetInitStep
  | ReInit
  deriving DecidableEq, Repr

/-- The fields of `NcHIPertFirstOrderPrivate` that the assembly and the
integrator controller read and write: the gravity provider (`none` for NULL),
the registry slots (`none` for a NULL slot), the variable table, the cached
bandwidth pair, the active list, the gauge, the length of the registry of
`bg_var` (`nc_hipert_bg_var_len`), the two backend handles (`none` for NULL, a
handle is the list of the calls made on it) with their init flags, the size of
the last allocation, the state and absolute tolerance vectors (`none` for NULL,
a vector is its length) and the selected backend. -/
structure NcHIPertFirstOrderPrivate where
  grav : Option NcHIPertGrav
  comps : List (Option NcHIPertComp)
  vars : List NcHIPertFirstOrderVar
  mupper : Int
  mlower : Int
  active_comps : List NcHIPertComp := []
  gauge : Int := 0
  bg_var_len : Nat := 0
  cvode : Option (List SundialsCall) := none
  cvode_init : Bool := false
  arkode : Option (List SundialsCall) := none
  arkode_init : Bool := false
  cur_sys_size : Nat := 0
  y : Option Nat := none
  abstol_v : Option Nat := none
  integ : Int := 0

/-- Modelled from the spec: `adj_set` (its source, `math/rcm.c`, is not at
hand).  The call `adj_set (..., var.index + 1, dep + 1)` records that the
variable of index `a` has the dependency `b`. -/
def adj_edge (vars : List NcHIPertFirstOrderVar) (a b : Nat) : Bool :=
  vars.any (fun var => var.index == (a : Int) && var.deps.contains (b : Int))

/-- Modelled from the spec: the adjacency structure that the `adj_set` calls of
`_nc_hipert_first_order_arrange_vars` build (the source of `adj_set`,
`math/rcm.c`, is not at hand).  Each variable is connected to every one of its
resolved dependencies, in both directions, a node is not its own neighbour; the
neighbours of a node are the nodes of `0 .. node_num - 1` listed in index
order. -/
def adj_neighbours (vars : List NcHIPertFirstOrderVar) (u : Nat) : List Nat :=
  (List.range vars.length).filter
    (fun v => v != u && (adj_edge vars u v || adj_edge vars v u))

/-- Modelled from the spec: `rcm`, the breadth-first traversal by
non-decreasing degree of the Cuthill-McKee ordering (its source, `math/rcm.c`,
is not at hand).  `seen` holds the nodes found so far, `queue` the nodes found and not yet
visited; the unseen neighbours of the visited node are appended in the order of
their degree, ties in index order.  A node is visited at every step, so
`fuel = node_num` steps visit every node; the nodes still in the queue are
kept as found if the fuel ends. -/
def rcm_bfs (nbr : Nat → List Nat) (deg : Nat → Nat) : Nat → List Nat → List Nat → List Nat
  | 0, _, queue => queue
  | _ + 1, _, [] => []
  | fuel + 1, seen, v :: queue =>
    let found := ((nbr v).filter (fun w => decide (w ∉ seen))).insertionSort
      (fun a b => deg a ≤ deg b)
    v :: rcm_bfs nbr deg fuel (seen ++ found) (queue ++ found)

/-- Modelled from the spec: `level_set`, the rooted level structure used to
look for a pseudo-peripheral node (its source, `math/rcm.c`, is not at hand):
the levels from the level `cur` on, each level made of the unseen neighbours of
the level before. -/
def level_set (nbr : Nat → List Nat) : Nat → List Nat → List Nat → List (List Nat)
  | 0, _, _ => []
  | _ + 1, _, [] => []
  | fuel + 1, seen, v :: cur =>
    let next := (((v :: cur).flatMap nbr).dedup).filter (fun w => decide (w ∉ seen))
    (v :: cur) :: level_set nbr fuel (seen ++ next) next

/-- Modelled from the spec: the choice of a node of least degree in the last
level made by `root_find` (its source, `math/rcm.c`, is not at hand): the first
node of least degree among `best` and the nodes of `l`. -/
def min_degree_node (deg : Nat → Nat) : Nat → List Nat → Nat
  | best, [] => best
  | best, w :: l => min_degree_node deg (if deg w < deg best then w else best) l

/-- Modelled from the spec: the iteration of `root_find` that looks for a
pseudo-peripheral node (its source, `math/rcm.c`, is not at hand): a node of
least degree of the last level becomes the root as long as its level structure
has more levels.  The number of levels grows at every step and is at most
`node_num`, so `fuel = node_num` steps are enough. -/
def root_find_loop (nbr : Nat → List Nat) (deg : Nat → Nat) (n : Nat) (visited : List Nat)
    (iccsze : Nat) : Nat → Nat → List (List Nat) → Nat
  | 0, root, _ => root
  | fuel + 1, root, ls =>
    let last := ls.getLastD []
    let cand := min_degree_node deg (last.headD root) last.tail
    let ls2 := level_set nbr (n + 1) (visited ++ [cand]) [cand]
    if ls2.length ≤ ls.length then cand
    else if iccsze ≤ ls2.length then cand
    else root_find_loop nbr deg n visited iccsze fuel cand ls2

/-- Modelled from the spec: `root_find`, the pseudo-peripheral node of the
component of `root` among the nodes not yet ordered (its source, `math/rcm.c`,
is not at hand).  The root is kept when its level structure has one level or
one node a level. -/
def root_find (nbr : Nat → List Nat) (deg : Nat → Nat) (n : Nat) (visited : List Nat)
    (root : Nat) : Nat :=
  let ls := level_set nbr (n + 1) (visited ++ [root]) [root]
  let iccsze := ls.flatten.length
  if ls.length = 1 ∨ ls.length = iccsze then root
  else root_find_loop nbr deg n visited iccsze n root ls

/-- Modelled from the spec: the loop of `genrcm` over the nodes `i` (its
source, `math/rcm.c`, is not at hand): a node not yet ordered starts a
component, which is ordered from a pseudo-peripheral node by the Cuthill-McKee
traversal and reversed. -/
def genrcm_loop (nbr : Nat → List Nat) (deg : Nat → Nat) (n : Nat) :
    List Nat → List Nat → List Nat
  | [], out => out
  | i :: rest, out =>
    if i ∈ out then genrcm_loop nbr deg n rest out
    else
      let root := root_find nbr deg n out i
      let comp := rcm_bfs nbr deg n (out ++ [root]) [root]
      genrcm_loop nbr deg n rest (out ++ comp.reverse)

/-- Modelled from the spec: `genrcm` (its source, `math/rcm.c`, is not at
hand).  The Reverse Cuthill-McKee ordering of the nodes `0 .. node_num - 1` of
the adjacency structure, as the array `perm` of the node numbers from 1. -/
def genrcm (node_num : Nat) (nbr : Nat → List Nat) : List Int :=
  (genrcm_loop nbr (fun u => (nbr u).length) node_num (List.range node_num) []).map
    (fun (v : Nat) => (v : Int) + 1)

/-- Modelled from the spec: `perm_inverse3` (its source, `math/rcm.c`, is not at
hand).  The inverse of the permutation `perm` of `1 .. node_num`:
`perm_inv[perm[i] - 1] = i + 1`. -/
def perm_inverse3 (node_num : Nat) (perm : List Int) : List Int :=
  (List.range node_num).map (fun (k : Nat) => (perm.indexOf ((k : Int) + 1) : Int) + 1)

/-- The loop `for (i = 0; i < node_num; i++) var->index = perm[i] - 1` of
`_nc_hipert_first_order_arrange_vars`, from the variable `i` on. -/
def arrange_write_index (perm : List Int) : List NcHIPertFirstOrderVar → Nat →
    List NcHIPertFirstOrderVar
  | [], _ => []
  | var :: vars, i => { var with index := perm.getD i 0 - 1 } :: arrange_write_index perm vars (i + 1)

/-- The loop over `j` of the bandwidth scan of
`_nc_hipert_first_order_arrange_vars` for the row `i`:
`dep = perm_inv[deps[j]] - 1`, `mupper = MAX (mupper, dep - i)` and
`mlower = MAX (mlower, i - dep)`; the pair is `(mupper, mlower)`. -/
def arrange_bandwidth_row (perm_inv : List Int) (i : Nat) (deps : List Int)
    (bw : Int × Int) : Int × Int :=
  deps.foldl
    (fun b d => (max b.1 (perm_inv.getD d.toNat 0 - 1 - (i : Int)),
                 max b.2 ((i : Int) - (perm_inv.getD d.toNat 0 - 1))))
    bw

/-- The bandwidth scan of `_nc_hipert_first_order_arrange_vars`: from
`mupper = mlower = 0`, the rows `i = 0 .. node_num - 1` with the variable
`vars[perm[i] - 1]`.  (A read outside an array, undefined in C, reads 0 or a
variable without dependencies.) -/
def arrange_bandwidth (vars : List NcHIPertFirstOrderVar) (perm perm_inv : List Int) :
    Int × Int :=
  (List.range vars.length).foldl
    (fun bw i =>
      arrange_bandwidth_row perm_inv i (vars.getD (perm.getD i 0 - 1).toNat default).deps bw)
    (0, 0)

/-- `_nc_hipert_first_order_arrange_vars` after the calls of `genrcm` and
`perm_inverse3`, for the arrays `perm` and `perm_inv` they filled: the indices
are written back and the bandwidth pair is scanned. -/
def arrange_vars_from (fo : NcHIPertFirstOrderPrivate) (perm perm_inv : List Int) :
    NcHIPertFirstOrderPrivate :=
  let vars1 := arrange_write_index perm fo.vars 0
  let bw := arrange_bandwidth vars1 perm perm_inv
  { fo with vars := vars1, mupper := bw.1, mlower := bw.2 }

/-- `_nc_hipert_first_order_arrange_vars` (the messages left out): the
adjacency structure of the table, `genrcm`, `perm_inverse3`, the indices and the
bandwidth pair. -/
def _nc_hipert_first_order_arrange_vars (fo : NcHIPertFirstOrderPrivate) :
    NcHIPertFirstOrderPrivate :=
  let node_num := fo.vars.length
  let perm := genrcm node_num (adj_neighbours fo.vars)
  let perm_inv := perm_inverse3 node_num perm
  arrange_vars_from fo perm perm_inv

/-- The loop of `_nc_hipert_first_order_prepare_internal` that resolves the
dependencies of every variable with `_nc_hipert_first_order_solve_deps` at
depth 0; a fatal error ends it. -/
def prepare_resolve (c : NcHIPertGravSElem) (ginfo : NcHIPertGravInfo)
    (Tsinfo : NcHIPertGravTScalarInfo) (fuel : Nat) :
    List NcHIPertFirstOrderVar → Outcome (List NcHIPertFirstOrderVar)
  | [] => .done []
  | var :: vars =>
    match _nc_hipert_first_order_solve_deps c ginfo Tsinfo fuel var.deps 0 with
    | .done deps =>
      match prepare_resolve c ginfo Tsinfo fuel vars with
      | .done vars1 => .done ({ var with deps := deps } :: vars1)
      | .too_many_levels => .too_many_levels
      | .not_reached => .not_reached
      | .out_of_fuel => .out_of_fuel
    | .too_many_levels => .too_many_levels
    | .not_reached => .not_reached
    | .out_of_fuel => .out_of_fuel

/-- `_nc_hipert_first_order_prepare_internal`: nothing is done without a
gravity provider; otherwise the table is assembled, every variable is resolved
and the table is reordered. -/
def _nc_hipert_first_order_prepare_internal (c : NcHIPertGravSElem) (fuel : Nat)
    (fo : NcHIPertFirstOrderPrivate) : Outcome NcHIPertFirstOrderPrivate :=
  match fo.grav with
  | none => .done fo
  | some grav =>
    let asm := prepare_assemble grav fo.comps
    match prepare_resolve c grav.get_G_scalar_info asm.2 fuel asm.1 with
    | .done vars1 => .done (_nc_hipert_first_order_arrange_vars { fo with vars := vars1 })
    | .too_many_levels => .too_many_levels
    | .not_reached => .not_reached
    | .out_of_fuel => .out_of_fuel

/-- The arrays `perm` and `perm_inv` hold mutually inverse permutations of
`1 .. n`. -/
def MutuallyInverse (n : Nat) (perm perm_inv : List Int) : Prop :=
  perm.length = n ∧ perm_inv.length = n
    ∧ (∀ i, i < n → 1 ≤ perm.getD i 0 ∧ perm.getD i 0 ≤ n
        ∧ perm_inv.getD (perm.getD i 0 - 1).toNat 0 = (i : Int) + 1)
    ∧ (∀ k, k < n → 1 ≤ perm_inv.getD k 0 ∧ perm_inv.getD k 0 ≤ n
        ∧ perm.getD (perm_inv.getD k 0 - 1).toNat 0 = (k : Int) + 1)

instance (n : Nat) (perm perm_inv : List Int) : Decidable (MutuallyInverse n perm perm_inv) := by
  unfold MutuallyInverse
  exact inferInstance

/-- Every dependency of the table is a position of the table. -/
def DepsInRange (vars : List NcHIPertFirstOrderVar) : Prop :=
  ∀ var ∈ vars, ∀ d ∈ var.deps, 0 ≤ d ∧ d < (vars.length : Int)

instance (vars : List NcHIPertFirstOrderVar) : Decidable (DepsInRange vars) := by
  unfold DepsInRange
  exact inferInstance

/-- The position of the variable `x` in the new ordering, as the bandwidth scan
reads it: `perm_inv[x] - 1`. -/
def new_position (perm_inv : List Int) (x : Nat) : Int := perm_inv.getD x 0 - 1

/-- A table from the dependency lists of its variables: owner `-1`, the index
is the position. -/
def table_of : List (List Int) → Nat → List NcHIPertFirstOrderVar
  | [], _ => []
  | deps :: l, i => ⟨-1, (i : Int), deps⟩ :: table_of l (i + 1)

/-- A resolved table of three variables: 0 and 1 both depend on 2. -/
def sample_path_fo : NcHIPertFirstOrderPrivate :=
  { grav := none, comps := [], vars := table_of [[2], [2], []] 0, mupper := 0, mlower := 0 }

/-- One edge of the adjacency structure between two nodes not yet ordered when
the component is started (`visited` holds the nodes ordered before). -/
def rcm_step (nbr : Nat → List Nat) (n : Nat) (visited : List Nat) (u w : Nat) : Prop :=
  w ∈ nbr u ∧ u ∉ visited ∧ w ∉ visited ∧ u < n

/-- The number of nodes of `0 .. n - 1` that are not in `seen`. -/
def rcm_unseen (n : Nat) (seen : List Nat) : Nat :=
  ((List.range n).filter (fun w => decide (w ∉ seen))).length

/-- A component with one variable that depends on DRHO, its own variable being
a source of DP. -/
def pair_comp0 : NcHIPertComp := ⟨1, fun _ => [-5], ⟨[], [], [0], []⟩, 0, false⟩

/-- A component with one variable that depends on DP, its own variable being a
source of DRHO. -/
def pair_comp1 : NcHIPertComp := ⟨1, fun _ => [-7], ⟨[0], [], [], []⟩, 1, false⟩

/-- The values of the enumeration `NcHIPertFirstOrderInteg`, the backend
selector.  The enumeration is declared in `nc_hipert_first_order.h`; its values
are taken as a parameter. -/
structure NcHIPertFirstOrderInteg where
  CVODE : Int
  ARKODE : Int
  LEN : Int

/-- What the source relies on about the backend selector: its three values are
pairwise different (they are the constants of one enumeration). -/
def NcHIPertFirstOrderInteg.WellFormed (k : NcHIPertFirstOrderInteg) : Prop :=
  k.CVODE ≠ k.ARKODE ∧ k.CVODE ≠ k.LEN ∧ k.ARKODE ≠ k.LEN

instance (k : NcHIPertFirstOrderInteg) : Decidable k.WellFormed := by
  unfold NcHIPertFirstOrderInteg.WellFormed
  exact inferInstance

/-- The gauge setters of the providers, `nc_hipert_grav_set_gauge` and
`nc_hipert_comp_set_gauge`: the provider as it is after it was told the gauge.
The providers are parameters of the system, and so are their setters. -/
structure NcHIPertGaugeSetters where
  nc_hipert_grav_set_gauge : NcHIPertGrav → Int → NcHIPertGrav
  nc_hipert_comp_set_gauge : NcHIPertComp → Int → NcHIPertComp

/-- The id of a component is the id of its class: telling it the gauge does not
change it. -/
def NcHIPertGaugeSetters.KeepsId (S : NcHIPertGaugeSetters) : Prop :=
  ∀ comp g, (S.nc_hipert_comp_set_gauge comp g).id = comp.id

/-- `nc_hipert_first_order_init`: no gravity provider, empty registry, active
list and variable table, the gauge `NC_HIPERT_GRAV_GAUGE_LEN`, no backend
handle, no vector, size 0, bandwidth pair `(0, 0)` and the backend
`NC_HIPERT_FIRST_ORDER_INTEG_LEN`.  The value of the gauge constant and the
length of the registry of the `bg_var` made by `nc_hipert_bg_var_new` are
parameters. -/
def nc_hipert_first_order_init (k : NcHIPertFirstOrderInteg) (gauge_len : Int)
    (bg_var_len : Nat) : NcHIPertFirstOrderPrivate :=
  { grav := none, comps := [], active_comps := [], vars := [], gauge := gauge_len,
    bg_var_len := bg_var_len, cvode := none, cvode_init := false, arkode := none,
    arkode_init := false, mupper := 0, mlower := 0, integ := k.LEN, cur_sys_size := 0,
    y := none, abstol_v := none }

/-- `nc_hipert_first_order_set_grav`: the stored provider is cleared; a provider
that is not NULL is stored, told the stored gauge, and
`_nc_hipert_first_order_prepare_internal` is called. -/
def nc_hipert_first_order_set_grav (S : NcHIPertGaugeSetters) (c : NcHIPertGravSElem)
    (fuel : Nat) (fo : NcHIPertFirstOrderPrivate) (grav : Option NcHIPertGrav) :
    Outcome NcHIPertFirstOrderPrivate :=
  match grav with
  | none => .done { fo with grav := none }
  | some g =>
    _nc_hipert_first_order_prepare_internal c fuel
      { fo with grav := some (S.nc_hipert_grav_set_gauge g fo.gauge) }

/-- `g_ptr_array_set_size` of GLib: the array is cut to `len` entries or filled
up to `len` entries with NULL. -/
def g_ptr_array_set_size {α : Type} (a : List (Option α)) (len : Nat) : List (Option α) :=
  a.take len ++ List.replicate (len - a.length) none

/-- How a call of `nc_hipert_first_order_add_comp` ends: the `g_error` for a
gravitation component, a failed `g_assert_cmpint`, or what follows them. -/
inductive AddOutcome where
  | grav_error
  | assert_failed
  | after (o : Outcome NcHIPertFirstOrderPrivate)

/-- `nc_hipert_first_order_add_comp`: a gravitation component is a fatal error,
the id is asserted to be in `0 .. len - 1`, the registry is sized to `len`; a
component whose slot is taken is dropped with a warning, otherwise it is stored
in its slot, appended to the active list, told the gauge, and
`_nc_hipert_first_order_prepare_internal` is called. -/
def nc_hipert_first_order_add_comp (S : NcHIPertGaugeSetters) (c : NcHIPertGravSElem)
    (fuel : Nat) (fo : NcHIPertFirstOrderPrivate) (comp : NcHIPertComp) : AddOutcome :=
  if comp.is_grav then .grav_error
  else if ¬ (comp.id ≥ 0) then .assert_failed
  else if ¬ (comp.id < (fo.bg_var_len : Int)) then .assert_failed
  else
    let comps1 := g_ptr_array_set_size fo.comps fo.bg_var_len
    match comps1.getD comp.id.toNat none with
    | some _ => .after (.done { fo with comps := comps1 })
    | none =>
      let comp1 := S.nc_hipert_comp_set_gauge comp fo.gauge
      .after (_nc_hipert_first_order_prepare_internal c fuel
        { fo with
          comps := comps1.set comp.id.toNat (some comp1)
          active_comps := fo.active_comps ++ [comp1] })

/-- A sequence of `nc_hipert_first_order_add_comp` calls, one for each
component of the list; `none` when a call did not return. -/
def add_comp_seq (S : NcHIPertGaugeSetters) (c : NcHIPertGravSElem) (fuel : Nat) :
    NcHIPertFirstOrderPrivate → List NcHIPertComp → Option NcHIPertFirstOrderPrivate
  | fo, [] => some fo
  | fo, comp :: rest =>
    match nc_hipert_first_order_add_comp S c fuel fo comp with
    | .after (.done fo1) => add_comp_seq S c fuel fo1 rest
    | _ => none

/-- The components held in the non-NULL registry slots, in ascending slot
order. -/
def registry_comps (comps : List (Option NcHIPertComp)) : List NcHIPertComp :=
  comps.filterMap (fun slot => slot)

/-- How a call of `_nc_hipert_first_order_prepare_integrator` ends: it ran to
its end, it returned early from an `NCM_CVODE_CHECK` after a SUNDIALS call gave
a negative flag, it ran into the `g_error` of the `default` case, or it called
`N_VConst` on the NULL vector (undefined in C). -/
inductive IntegOutcome where
  | returned (fo : NcHIPertFirstOrderPrivate)
  | check_failed (fo : NcHIPertFirstOrderPrivate)
  | unsupported
  | null_vector

/-- The state in which a call that returned left the object. -/
def IntegOutcome.state : IntegOutcome → Option NcHIPertFirstOrderPrivate
  | .returned fo => some fo
  | .check_failed fo => some fo
  | .unsupported => none
  | .null_vector => none

/-- A run of SUNDIALS calls on the handle `h`, each followed by
`NCM_CVODE_CHECK (&flag, ..., 1, )`, which returns from the function when the
flag is negative.  `flag_ok h call` tells whether `call`, made on the handle
`h`, gives a flag that is not negative (SUNDIALS is a library outside the
repository: its answers are a parameter).  The result is the handle with the
calls made on it and whether every check passed. -/
def sundials_run (flag_ok : Option (List SundialsCall) → SundialsCall → Bool) :
    Option (List SundialsCall) → List SundialsCall → Option (List SundialsCall) × Bool
  | h, [] => (h, true)
  | h, call :: rest =>
    if flag_ok h call then sundials_run flag_ok (h.map (fun l => l ++ [call])) rest
    else (h.map (fun l => l ++ [call]), false)

/-- The block `if (cur_sys_size != vars->len)` of
`_nc_hipert_first_order_prepare_integrator`: each handle that is not NULL is
freed and its init flag is cleared, the two vectors are destroyed, the size is
set to the number of variables and the two vectors are made anew with that
length (the allocations of `N_VNew_Serial` are taken to succeed). -/
def prepare_integrator_resize (fo : NcHIPertFirstOrderPrivate) : NcHIPertFirstOrderPrivate :=
  if fo.cur_sys_size ≠ fo.vars.length then
    let fo1 := if fo.cvode.isSome then { fo with cvode := none, cvode_init := false } else fo
    let fo2 := if fo1.arkode.isSome then { fo1 with arkode := none, arkode_init := false } else fo1
    { fo2 with
      cur_sys_size := fo.vars.length
      y := some fo.vars.length
      abstol_v := some fo.vars.length }
  else fo

/-- The calls of the first branch of the case `NC_HIPERT_FIRST_ORDER_INTEG_CVODE`
after `CVodeCreate`. -/
def cvode_init_calls (fo : NcHIPertFirstOrderPrivate) : List SundialsCall :=
  [.Init, .SVtolerances, .SetMaxNumSteps 0, .Band fo.cur_sys_size fo.mupper fo.mlower,
   .DlsSetDenseJacFn, .SetInitStep]

/-- The calls of the first branch of the case
`NC_HIPERT_FIRST_ORDER_INTEG_ARKODE` after `ARKodeCreate`. -/
def arkode_init_calls (fo : NcHIPertFirstOrderPrivate) : List SundialsCall :=
  [.Init, .SVtolerances, .SetMaxNumSteps 0, .Band fo.cur_sys_size fo.mupper fo.mlower,
   .DlsSetDenseJacFn, .SetLinear 1, .SetOrder 7, .SetInitStep]

/-- The calls of the `else` branch of either case. -/
def reinit_calls : List SundialsCall := [.ReInit, .SetInitStep]

/-- `_nc_hipert_first_order_prepare_integrator` (with `HAVE_SUNDIALS_ARKODE`
defined, as `nc_hipert_first_order_init` needs to compile): the block of the
size, `N_VConst (abstol, abstol_v)`, and the `switch` on the selected backend.
The case CVODE creates and sets up the handle `if (cvode_init)` and calls
`CVodeReInit` otherwise; the case ARKODE creates and sets up the handle
`if (!arkode_init)` and calls `ARKodeReInit` otherwise; the allocations of
`CVodeCreate` and `ARKodeCreate` are taken to succeed. -/
def _nc_hipert_first_order_prepare_integrator (k : NcHIPertFirstOrderInteg)
    (flag_ok : Option (List SundialsCall) → SundialsCall → Bool)
    (fo0 : NcHIPertFirstOrderPrivate) : IntegOutcome :=
  let fo := prepare_integrator_resize fo0
  match fo.abstol_v with
  | none => .null_vector
  | some _ =>
    if fo.integ = k.CVODE then
      if fo.cvode_init then
        let r := sundials_run flag_ok (some [SundialsCall.Create]) (cvode_init_calls fo)
        if r.2 then .returned { fo with cvode := r.1, cvode_init := true }
        else .check_failed { fo with cvode := r.1 }
      else
        let r := sundials_run flag_ok fo.cvode reinit_calls
        if r.2 then .returned { fo with cvode := r.1 }
        else .check_failed { fo with cvode := r.1 }
    else if fo.integ = k.ARKODE then
      if !fo.arkode_init then
        let r := sundials_run flag_ok (some [SundialsCall.Create]) (arkode_init_calls fo)
        if r.2 then .returned { fo with arkode := r.1, arkode_init := true }
        else .check_failed { fo with arkode := r.1 }
      else
        let r := sundials_run flag_ok fo.arkode reinit_calls
        if r.2 then .returned { fo with arkode := r.1 }
        else .check_failed { fo with arkode := r.1 }
    else .unsupported

/-- What the states of the object keep about the integrator: the two vectors
are both NULL or both of the length `cur_sys_size`, and a backend whose init
flag is set has a handle. -/
def IntegInv (fo : NcHIPertFirstOrderPrivate) : Prop :=
  fo.y = fo.abstol_v
    ∧ (fo.abstol_v = none ∨ fo.abstol_v = some fo.cur_sys_size)
    ∧ (fo.cvode_init = true → fo.cvode.isSome = true)
    ∧ (fo.arkode_init = true → fo.arkode.isSome = true)

instance (fo : NcHIPertFirstOrderPrivate) : Decidable (IntegInv fo) := by
  unfold IntegInv
  exact inferInstance

/-- The largest depth `r` with which `_nc_hipert_first_order_solve_deps` is
entered in the run from `(deps, r)`: the function of the same shape that
returns the depth in place of the list. -/
def solve_deps_depth (c : NcHIPertGravSElem) (ginfo : NcHIPertGravInfo)
    (Tsinfo : NcHIPertGravTScalarInfo) : Nat → List Int → Nat → Nat
  | 0, _, r => r
  | fuel + 1, deps, r =>
    if r > 9 then r
    else
      match solve_deps_scan c ginfo Tsinfo fuel deps 0 false with
      | .done (deps1, subs) =>
        if subs then solve_deps_depth c ginfo Tsinfo fuel deps1 (r + 1) else r
      | _ => r

/-- Sample values of the backend selector. -/
def sample_integ : NcHIPertFirstOrderInteg := ⟨0, 1, 2⟩

/-- SUNDIALS answering as documented: a call on the NULL handle gives a
negative flag, a call on a handle succeeds. -/
def sample_flag_ok (h : Option (List SundialsCall)) (_call : SundialsCall) : Bool := h.isSome

/-- Gauge setters that leave the providers as they are. -/
def sample_setters : NcHIPertGaugeSetters := ⟨fun grav _ => grav, fun comp _ => comp⟩

/-- A gravity provider with one variable that depends on itself. -/
def single_grav : NcHIPertGrav := ⟨1, fun _ => [0], ⟨[], [], [], []⟩⟩

/-- A state with the registry sized to three slots, slot 1 taken. -/
def sample_registry_fo : NcHIPertFirstOrderPrivate :=
  { grav := none, comps := [none, some pair_comp1, none], vars := [], mupper := 0, mlower := 0,
    active_comps := [pair_comp1], bg_var_len := 3 }

/-- A second component with the id 1. -/
def other_comp1 : NcHIPertComp := ⟨2, fun _ => [], ⟨[], [], [], []⟩, 1, false⟩

/-- Gauge setters that mark the provider they are called on: the gravity
provider gets one more variable, the component one more variable. -/
def marking_setters : NcHIPertGaugeSetters :=
  ⟨fun grav _ => { grav with ndyn_var := grav.ndyn_var + 1 },
   fun comp _ => { comp with ndyn_var := comp.ndyn_var + 1 }⟩

/-- The state in which a call of `nc_hipert_first_order_add_comp` that returned
left the object. -/
def AddOutcome.state : AddOutcome → Option NcHIPertFirstOrderPrivate
  | .after (.done fo) => some fo
  | _ => none

/-- A state with a gravity provider of one variable and an empty registry for
three ids. -/
def sample_grav_fo : NcHIPertFirstOrderPrivate :=
  { grav := some single_grav, comps := [], vars := [⟨-1, 0, [0]⟩], mupper := 0, mlower := 0,
    bg_var_len := 3 }

/-- The invariant of the registry: the component in slot `i` has the id `i`,
the active list holds the components of the non-NULL slots, each once, and the
registry is empty (as `nc_hipert_first_order_init` makes it) or sized to the
length of the background-variable registry. -/
def RegistryInv (fo : NcHIPertFirstOrderPrivate) : Prop :=
  (∀ (i : Nat) (comp : NcHIPertComp), fo.comps[i]? = some (some comp) → comp.id = (i : Int))
    ∧ fo.active_comps.Perm (registry_comps fo.comps)
    ∧ (fo.comps = [] ∨ fo.comps.length = fo.bg_var_len)

/-- The state with which a run ended, if it ended with one. -/
def Outcome.state {α : Type} : Outcome α → Option α
  | .done a => some a
  | _ => none

/-- A state with a gravity provider of one variable, the backend CVODE selected
and nothing prepared for the integrator: no handle, no vector, size 0. -/
def sample_cvode_fo : NcHIPertFirstOrderPrivate :=
  { sample_grav_fo with integ := sample_integ.CVODE }

/-- The same state with the backend ARKODE selected. -/
def sample_arkode_fo : NcHIPertFirstOrderPrivate :=
  { sample_grav_fo with integ := sample_integ.ARKODE }

/-- A state in which CVODE is Initialized at the size of the table: the handle
`h` is there and the init flag is set. -/
def sample_cvode_ready_fo (h : List SundialsCall) : NcHIPertFirstOrderPrivate :=
  { sample_grav_fo with
    integ := sample_integ.CVODE, cvode := some h, cvode_init := true, cur_sys_size := 1,
    y := some 1, abstol_v := some 1 }

/-- A state in which both backends are Initialized at the size 3 while the
table has one variable. -/
def sample_stale_fo : NcHIPertFirstOrderPrivate :=
  { sample_grav_fo with
    integ := sample_integ.ARKODE, cvode := some [SundialsCall.Create], cvode_init := true,
    arkode := some [SundialsCall.Create], arkode_init := true, cur_sys_size := 3,
    y := some 3, abstol_v := some 3 }

/-- The state made by `nc_hipert_first_order_init` after a gravity provider of
one variable was set: the backend is still the one stored by
`nc_hipert_first_order_init`. -/
def sample_unset_fo : NcHIPertFirstOrderPrivate :=
  { nc_hipert_first_order_init sample_integ 0 3 with
    grav := some single_grav, vars := [⟨-1, 0, [0]⟩] }

/-! ## Theorems -/

theorem getElem?_split (kept rest : List Int) :
    (kept ++ rest)[kept.length]? = rest.head? := by
  rw [List.getElem?_append_right (le_refl _)]
  cases rest <;> simp

theorem eraseIdx_split (kept : List Int) (v : Int) (rest : List Int) :
    (kept ++ v :: rest).eraseIdx kept.length = kept ++ rest := by
  rw [List.eraseIdx_append_of_length_le (le_refl _)]
  simp

theorem solve_deps_scan_eq_split (c : NcHIPertGravSElem) (g : NcHIPertGravInfo)
    (T : NcHIPertGravTScalarInfo) (fuel : Nat) :
    ∀ (kept rest : List Int) (subs : Bool),
      solve_deps_scan c g T fuel (kept ++ rest) kept.length subs
        = scan_split c g T fuel kept rest subs := by
  induction fuel with
  | zero => intro kept rest subs; simp [solve_deps_scan, scan_split]
  | succ n ih =>
    intro kept rest subs
    cases rest with
    | nil => simp [solve_deps_scan, scan_split]
    | cons v rest =>
      rw [solve_deps_scan, getElem?_split]
      simp only [List.head?_cons, scan_split]
      by_cases hv : v < 0
      · simp only [hv, if_true]
        cases hsw : solve_deps_switch c g T v with
        | none => rfl
        | some b =>
          simp only
          rw [eraseIdx_split, List.append_assoc]
          exact ih kept (rest ++ b) true
      · simp only [hv, if_false]
        have := ih (kept ++ [v]) rest subs
        simpa using this

theorem solve_deps_uniq_eq_split (n : Nat) :
    ∀ (kept rest : List Int) (last : Int), rest.length ≤ n →
      solve_deps_uniq n (kept ++ rest) kept.length last = kept ++ uniq_split last rest := by
  induction n with
  | zero =>
    intro kept rest last h
    have : rest = [] := List.eq_nil_of_length_eq_zero (Nat.le_zero.mp h)
    subst this
    simp [solve_deps_uniq, uniq_split]
  | succ n ih =>
    intro kept rest last h
    cases rest with
    | nil => simp [solve_deps_uniq, uniq_split]
    | cons v rest =>
      have hlen : rest.length ≤ n := by simpa using h
      rw [solve_deps_uniq, getElem?_split]
      simp only [List.head?_cons, uniq_split]
      by_cases hv : v = last
      · simp only [hv, if_true]
        rw [eraseIdx_split]
        exact ih kept rest last hlen
      · simp only [hv, if_false]
        have := ih (kept ++ [v]) rest v hlen
        simpa using this

theorem solve_deps_sort_uniq_eq (deps : List Int) :
    solve_deps_sort_uniq deps =
      match deps.insertionSort (fun a b => a ≤ b) with
      | [] => []
      | a :: t => a :: uniq_split a t := by
  unfold solve_deps_sort_uniq
  cases h : deps.insertionSort (fun a b => a ≤ b) with
  | nil => rfl
  | cons a t =>
    simp only
    split
    · have := solve_deps_uniq_eq_split (a :: t).length [a] t a (by simp)
      simpa using this
    · rename_i hlen
      have : t = [] := by
        cases t with
        | nil => rfl
        | cons b t => simp at hlen
      subst this
      simp [uniq_split]

theorem scan_split_done_nonneg (c : NcHIPertGravSElem) (g : NcHIPertGravInfo)
    (T : NcHIPertGravTScalarInfo) (fuel : Nat) :
    ∀ (kept rest : List Int) (subs : Bool) (out : List Int) (s : Bool),
      scan_split c g T fuel kept rest subs = .done (out, s) →
      (∀ x ∈ kept, 0 ≤ x) → ∀ x ∈ out, 0 ≤ x := by
  induction fuel with
  | zero => intro kept rest subs out s h; simp [scan_split] at h
  | succ n ih =>
    intro kept rest subs out s h hk
    cases rest with
    | nil =>
      simp only [scan_split, Outcome.done.injEq, Prod.mk.injEq] at h
      rw [← h.1]; exact hk
    | cons v rest =>
      simp only [scan_split] at h
      by_cases hv : v < 0
      · simp only [hv, if_true] at h
        cases hsw : solve_deps_switch c g T v with
        | none => simp [hsw] at h
        | some b =>
          simp only [hsw] at h
          exact ih kept (rest ++ b) true out s h hk
      · simp only [hv, if_false] at h
        refine ih (kept ++ [v]) rest subs out s h ?_
        intro x hx
        rcases List.mem_append.mp hx with hx | hx
        · exact hk x hx
        · simp only [List.mem_singleton] at hx
          omega

theorem mem_uniq_split : ∀ (t : List Int) (a x : Int),
    x ∈ a :: uniq_split a t ↔ x ∈ a :: t := by
  intro t
  induction t with
  | nil => intro a x; simp [uniq_split]
  | cons v t ih =>
    intro a x
    simp only [uniq_split]
    by_cases hv : v = a
    · subst hv
      simp only [if_true]
      rw [ih v x]
      simp
    · simp only [hv, if_false]
      have := ih v x
      simp only [List.mem_cons] at this ⊢
      rw [this]

theorem uniq_split_sorted : ∀ (t : List Int) (a : Int),
    (a :: t).Sorted (fun x y => x ≤ y) → (a :: uniq_split a t).Sorted (fun x y => x < y) := by
  intro t
  induction t with
  | nil => intro a _; simp [uniq_split]
  | cons v t ih =>
    intro a h
    have h1 := List.sorted_cons.mp h
    have h2 := List.sorted_cons.mp h1.2
    simp only [uniq_split]
    by_cases hv : v = a
    · subst hv
      simp only [if_true]
      exact ih v h1.2
    · simp only [hv, if_false]
      have hlt : a < v := lt_of_le_of_ne (h1.1 v (List.mem_cons_self _ _)) (Ne.symm hv)
      refine List.sorted_cons.mpr ⟨?_, ih v h1.2⟩
      intro b hb
      have hb2 : b ∈ v :: t := (mem_uniq_split t v b).mp hb
      rcases List.mem_cons.mp hb2 with hb3 | hb3
      · rw [hb3]; exact hlt
      · exact lt_of_lt_of_le hlt (h2.1 b hb3)

theorem mem_solve_deps_sort_uniq (deps : List Int) (x : Int) :
    x ∈ solve_deps_sort_uniq deps ↔ x ∈ deps := by
  rw [solve_deps_sort_uniq_eq]
  have hp := List.perm_insertionSort (fun a b : Int => a ≤ b) deps
  cases h : deps.insertionSort (fun a b => a ≤ b) with
  | nil =>
    rw [h] at hp
    have : deps = [] := List.Perm.eq_nil (List.Perm.symm hp)
    simp [this]
  | cons a t =>
    simp only
    rw [mem_uniq_split, ← h]
    exact hp.mem_iff

theorem solve_deps_sort_uniq_sorted (deps : List Int) :
    (solve_deps_sort_uniq deps).Sorted (fun x y => x < y) := by
  rw [solve_deps_sort_uniq_eq]
  have hs := List.sorted_insertionSort (fun a b : Int => a ≤ b) deps
  cases h : deps.insertionSort (fun a b => a ≤ b) with
  | nil => simp
  | cons a t =>
    simp only
    rw [h] at hs
    exact uniq_split_sorted t a hs

theorem solve_deps_done_sorted (c : NcHIPertGravSElem) (g : NcHIPertGravInfo)
    (T : NcHIPertGravTScalarInfo) (fuel : Nat) :
    ∀ (deps : List Int) (r : Nat) (out : List Int),
      _nc_hipert_first_order_solve_deps c g T fuel deps r = .done out →
      (∀ x ∈ out, 0 ≤ x) ∧ out.Sorted (fun x y => x < y) := by
  induction fuel with
  | zero => intro deps r out h; simp [_nc_hipert_first_order_solve_deps] at h
  | succ n ih =>
    intro deps r out h
    rw [_nc_hipert_first_order_solve_deps] at h
    by_cases hr : r > 9
    · simp [hr] at h
    · simp only [hr, if_false] at h
      have hsc := solve_deps_scan_eq_split c g T n [] deps false
      simp only [List.nil_append, List.length_nil] at hsc
      rw [hsc] at h
      cases hz : scan_split c g T n [] deps false with
      | too_many_levels => simp [hz] at h
      | not_reached => simp [hz] at h
      | out_of_fuel => simp [hz] at h
      | done p =>
        obtain ⟨deps1, subs⟩ := p
        simp only [hz] at h
        cases subs with
        | true =>
          simp only [if_true] at h
          exact ih deps1 (r + 1) out h
        | false =>
          simp only [Bool.false_eq_true, if_false, Outcome.done.injEq] at h
          subst h
          refine ⟨?_, solve_deps_sort_uniq_sorted deps1⟩
          intro x hx
          have hx1 := (mem_solve_deps_sort_uniq deps1 x).mp hx
          exact scan_split_done_nonneg c g T n [] deps false deps1 false hz (by simp) x hx1

/-- C1: whenever `_nc_hipert_first_order_solve_deps`, started at depth 0, ends
without a fatal error, the resulting list has no placeholder (every entry is
`>= 0`), is sorted in strictly ascending order and has no duplicate entry. -/
theorem solve_deps_result_resolved (c : NcHIPertGravSElem) (ginfo : NcHIPertGravInfo)
    (Tsinfo : NcHIPertGravTScalarInfo) (fuel : Nat) (deps out : List Int)
    (h : _nc_hipert_first_order_solve_deps c ginfo Tsinfo fuel deps 0 = .done out) :
    (∀ x ∈ out, 0 ≤ x) ∧ out.Sorted (fun x y => x < y) ∧ out.Nodup := by
  have h1 := solve_deps_done_sorted c ginfo Tsinfo fuel deps 0 out h
  exact ⟨h1.1, h1.2, h1.2.nodup⟩

theorem solve_deps_result_resolved_witness :
    _nc_hipert_first_order_solve_deps sample_codes sample_ginfo sample_Tsinfo 20
        [-2, 5, -3, 0] 0 = .done [0, 2, 3, 5]
      ∧ ((∀ x ∈ [0, 2, 3, 5], (0 : Int) ≤ x)
        ∧ [0, 2, 3, (5 : Int)].Sorted (fun x y => x < y) ∧ [0, 2, 3, (5 : Int)].Nodup) :=
  ⟨by decide, solve_deps_result_resolved sample_codes sample_ginfo sample_Tsinfo 20
    [-2, 5, -3, 0] [0, 2, 3, 5] (by decide)⟩

theorem scan_split_nonneg (c : NcHIPertGravSElem) (g : NcHIPertGravInfo)
    (T : NcHIPertGravTScalarInfo) :
    ∀ (rest kept : List Int) (subs : Bool) (fuel : Nat),
      (∀ x ∈ rest, 0 ≤ x) → rest.length < fuel →
      scan_split c g T fuel kept rest subs = .done (kept ++ rest, subs) := by
  intro rest
  induction rest with
  | nil =>
    intro kept subs fuel _ hf
    cases fuel with
    | zero => simp at hf
    | succ n => simp [scan_split]
  | cons v rest ih =>
    intro kept subs fuel hx hf
    cases fuel with
    | zero => simp at hf
    | succ n =>
      have hv : ¬ v < 0 := not_lt.mpr (hx v (List.mem_cons_self _ _))
      simp only [scan_split, hv, if_false]
      rw [ih (kept ++ [v]) subs n (fun x hx1 => hx x (List.mem_cons_of_mem _ hx1))
        (by simpa using hf)]
      simp

theorem uniq_split_of_sorted : ∀ (t : List Int) (a : Int),
    (a :: t).Sorted (fun x y => x < y) → uniq_split a t = t := by
  intro t
  induction t with
  | nil => intro a _; rfl
  | cons v t ih =>
    intro a h
    have h1 := List.sorted_cons.mp h
    have hv : v ≠ a := ne_of_gt (h1.1 v (List.mem_cons_self _ _))
    simp only [uniq_split, hv, if_false]
    rw [ih v h1.2]

theorem solve_deps_sort_uniq_of_sorted (l : List Int)
    (h : l.Sorted (fun x y => x < y)) : solve_deps_sort_uniq l = l := by
  rw [solve_deps_sort_uniq_eq]
  have hle : l.Sorted (fun x y => x ≤ y) := h.imp (fun hxy => le_of_lt hxy)
  rw [List.Sorted.insertionSort_eq hle]
  cases l with
  | nil => rfl
  | cons a t =>
    simp only
    rw [uniq_split_of_sorted t a h]

theorem solve_deps_of_resolved (c : NcHIPertGravSElem) (g : NcHIPertGravInfo)
    (T : NcHIPertGravTScalarInfo) (l : List Int) (r fuel : Nat)
    (hn : ∀ x ∈ l, 0 ≤ x) (hs : l.Sorted (fun x y => x < y)) (hr : r ≤ 9)
    (hf : l.length + 1 < fuel) :
    _nc_hipert_first_order_solve_deps c g T fuel l r = .done l := by
  cases fuel with
  | zero => simp at hf
  | succ n =>
    have hr1 : ¬ r > 9 := by omega
    rw [_nc_hipert_first_order_solve_deps]
    simp only [hr1, if_false]
    have hsc := solve_deps_scan_eq_split c g T n [] l false
    simp only [List.nil_append, List.length_nil] at hsc
    rw [hsc, scan_split_nonneg c g T l [] false n hn (by omega)]
    simp [solve_deps_sort_uniq_of_sorted l hs]

/-- C3: closure resolution is idempotent: a list produced by
`_nc_hipert_first_order_solve_deps` is returned unchanged when
`_nc_hipert_first_order_solve_deps` is run on it again, with any info tables
(and any fuel that lets the scan reach the end of the list). -/
theorem solve_deps_idempotent (c : NcHIPertGravSElem) (ginfo ginfo2 : NcHIPertGravInfo)
    (Tsinfo Tsinfo2 : NcHIPertGravTScalarInfo) (fuel fuel2 : Nat) (deps out : List Int)
    (h : _nc_hipert_first_order_solve_deps c ginfo Tsinfo fuel deps 0 = .done out)
    (hf : out.length + 1 < fuel2) :
    _nc_hipert_first_order_solve_deps c ginfo2 Tsinfo2 fuel2 out 0 = .done out := by
  have h1 := solve_deps_done_sorted c ginfo Tsinfo fuel deps 0 out h
  exact solve_deps_of_resolved c ginfo2 Tsinfo2 out 0 fuel2 h1.1 h1.2 (by omega) hf

theorem solve_deps_idempotent_witness :
    _nc_hipert_first_order_solve_deps sample_codes cyclic_ginfo sample_Tsinfo 6
        [0, 2, 3, 5] 0 = .done [0, 2, 3, 5] :=
  solve_deps_idempotent sample_codes sample_ginfo cyclic_ginfo sample_Tsinfo sample_Tsinfo
    20 6 [-2, 5, -3, 0] [0, 2, 3, 5] (by decide) (by decide)

theorem scan_split_self_expansion (c : NcHIPertGravSElem) (g : NcHIPertGravInfo)
    (T : NcHIPertGravTScalarInfo) (p : Int) (e : List Int) (hp : p < 0)
    (he : solve_deps_switch c g T p = some e) (hpe : p ∈ e) (fuel : Nat) :
    ∀ (kept rest : List Int) (subs : Bool), p ∈ rest →
      scan_split c g T fuel kept rest subs = .out_of_fuel
        ∨ scan_split c g T fuel kept rest subs = .not_reached := by
  induction fuel with
  | zero => intro kept rest subs _; left; rfl
  | succ n ih =>
    intro kept rest subs hmem
    cases rest with
    | nil => simp at hmem
    | cons v rest =>
      simp only [scan_split]
      by_cases hv : v < 0
      · simp only [hv, if_true]
        cases hsw : solve_deps_switch c g T v with
        | none => right; rfl
        | some b =>
          simp only
          apply ih
          rcases List.mem_cons.mp hmem with h1 | h1
          · subst h1
            rw [he] at hsw
            injection hsw with hsw
            subst hsw
            exact List.mem_append_right _ hpe
          · exact List.mem_append_left _ h1
      · simp only [hv, if_false]
        apply ih
        rcases List.mem_cons.mp hmem with h1 | h1
        · subst h1; exact absurd hp hv
        · exact h1

/-- C4 (the code at the failing input): when the expansion of a placeholder
`p` contains `p` itself, resolving a list that contains `p` is never rejected
with the "too many recursion levels" error and never returns: for every amount
of fuel the scan of depth 0 is still running, unless it aborted on an unknown
placeholder code. -/
theorem solve_deps_self_expansion_not_rejected (c : NcHIPertGravSElem)
    (ginfo : NcHIPertGravInfo) (Tsinfo : NcHIPertGravTScalarInfo) (p : Int) (e : List Int)
    (hp : p < 0) (he : solve_deps_switch c ginfo Tsinfo p = some e) (hpe : p ∈ e)
    (deps : List Int) (hd : p ∈ deps) (fuel : Nat) :
    _nc_hipert_first_order_solve_deps c ginfo Tsinfo fuel deps 0 = .out_of_fuel
      ∨ _nc_hipert_first_order_solve_deps c ginfo Tsinfo fuel deps 0 = .not_reached := by
  cases fuel with
  | zero => left; rfl
  | succ n =>
    rw [_nc_hipert_first_order_solve_deps]
    simp only [gt_iff_lt, Nat.not_lt_zero, if_false]
    have hsc := solve_deps_scan_eq_split c ginfo Tsinfo n [] deps false
    simp only [List.nil_append, List.length_nil] at hsc
    rw [hsc]
    rcases scan_split_self_expansion c ginfo Tsinfo p e hp he hpe n [] deps false hd with h | h
    · left; rw [h]
    · right; rw [h]

theorem solve_deps_self_expansion_not_rejected_witness :
    _nc_hipert_first_order_solve_deps sample_codes cyclic_ginfo sample_Tsinfo 40 [-1] 0
      = .out_of_fuel :=
  (solve_deps_self_expansion_not_rejected sample_codes cyclic_ginfo sample_Tsinfo (-1) [-1]
    (by decide) (by decide) (by decide) [-1] (by decide) 40).resolve_right (by decide)

theorem switch_expands (c : NcHIPertGravSElem) (g : NcHIPertGravInfo)
    (T : NcHIPertGravTScalarInfo) (v : Int) (e : List Int)
    (h : solve_deps_switch c g T v = some e) : Expands c g T v e := by
  unfold solve_deps_switch at h
  split_ifs at h with h1 h2 h3 h4 h5 h6 h7 h8 <;> injection h with h <;> subst h
  · subst h1; exact .phi
  · subst h2; exact .dsigma
  · subst h3; exact .psi
  · subst h4; exact .dotpsi
  · subst h5; exact .drho
  · subst h6; exact .rhoppv
  · subst h7; exact .dp
  · subst h8; exact .dpi

theorem expands_switch (c : NcHIPertGravSElem) (g : NcHIPertGravInfo)
    (T : NcHIPertGravTScalarInfo) (hc : c.WellFormed) (v : Int) (e : List Int)
    (h : Expands c g T v e) : solve_deps_switch c g T v = some e := by
  have hn := hc.2
  simp only [NcHIPertGravSElem.codes, List.nodup_cons, List.mem_cons, List.mem_singleton,
    not_or, List.not_mem_nil, not_false_eq_true, List.nodup_nil, and_true] at hn
  obtain ⟨⟨a1, a2, a3, a4, a5, a6, a7⟩, ⟨b2, b3, b4, b5, b6, b7⟩, ⟨c3, c4, c5, c6, c7⟩,
    ⟨d4, d5, d6, d7⟩, ⟨e5, e6, e7⟩, ⟨f6, f7⟩, g7⟩ := hn
  cases h with
  | phi => simp [solve_deps_switch]
  | dsigma => simp [solve_deps_switch, Ne.symm a1]
  | psi => simp [solve_deps_switch, Ne.symm a2, Ne.symm b2]
  | dotpsi => simp [solve_deps_switch, Ne.symm a3, Ne.symm b3, Ne.symm c3]
  | drho => simp [solve_deps_switch, Ne.symm a4, Ne.symm b4, Ne.symm c4, Ne.symm d4]
  | rhoppv =>
    simp [solve_deps_switch, Ne.symm a5, Ne.symm b5, Ne.symm c5, Ne.symm d5, Ne.symm e5]
  | dp =>
    simp [solve_deps_switch, Ne.symm a6, Ne.symm b6, Ne.symm c6, Ne.symm d6, Ne.symm e6,
      Ne.symm f6]
  | dpi =>
    simp [solve_deps_switch, Ne.symm a7, Ne.symm b7, Ne.symm c7, Ne.symm d7, Ne.symm e7,
      Ne.symm f7, Ne.symm g7]

theorem expands_mem_codes (c : NcHIPertGravSElem) (g : NcHIPertGravInfo)
    (T : NcHIPertGravTScalarInfo) (v : Int) (e : List Int)
    (h : Expands c g T v e) : v ∈ c.codes := by
  cases h <;> simp [NcHIPertGravSElem.codes]

theorem expands_neg (c : NcHIPertGravSElem) (g : NcHIPertGravInfo)
    (T : NcHIPertGravTScalarInfo) (hc : c.WellFormed) (v : Int) (e : List Int)
    (h : Expands c g T v e) : v < 0 :=
  hc.1 v (expands_mem_codes c g T v e h)

theorem reaches_of_nonneg (c : NcHIPertGravSElem) (g : NcHIPertGravInfo)
    (T : NcHIPertGravTScalarInfo) (hc : c.WellFormed) (v x : Int) (hv : 0 ≤ v)
    (h : Reaches c g T v x) : x = v := by
  cases h with
  | here => rfl
  | step hexp _ _ =>
    have := expands_neg c g T hc v _ hexp
    omega

theorem inClosure_cons (c : NcHIPertGravSElem) (g : NcHIPertGravInfo)
    (T : NcHIPertGravTScalarInfo) (v : Int) (l : List Int) (x : Int) :
    InClosure c g T (v :: l) x ↔ (0 ≤ x ∧ Reaches c g T v x) ∨ InClosure c g T l x := by
  unfold InClosure
  constructor
  · rintro ⟨hx, d, hd, hr⟩
    rcases List.mem_cons.mp hd with h | h
    · subst h; exact Or.inl ⟨hx, hr⟩
    · exact Or.inr ⟨hx, d, h, hr⟩
  · rintro (⟨hx, hr⟩ | ⟨hx, d, hd, hr⟩)
    · exact ⟨hx, v, List.mem_cons_self _ _, hr⟩
    · exact ⟨hx, d, List.mem_cons_of_mem _ hd, hr⟩

theorem inClosure_append (c : NcHIPertGravSElem) (g : NcHIPertGravInfo)
    (T : NcHIPertGravTScalarInfo) (l1 l2 : List Int) (x : Int) :
    InClosure c g T (l1 ++ l2) x ↔ InClosure c g T l1 x ∨ InClosure c g T l2 x := by
  unfold InClosure
  constructor
  · rintro ⟨hx, d, hd, hr⟩
    rcases List.mem_append.mp hd with h | h
    · exact Or.inl ⟨hx, d, h, hr⟩
    · exact Or.inr ⟨hx, d, h, hr⟩
  · rintro (⟨hx, d, hd, hr⟩ | ⟨hx, d, hd, hr⟩)
    · exact ⟨hx, d, List.mem_append_left _ hd, hr⟩
    · exact ⟨hx, d, List.mem_append_right _ hd, hr⟩

theorem reaches_placeholder (c : NcHIPertGravSElem) (g : NcHIPertGravInfo)
    (T : NcHIPertGravTScalarInfo) (hc : c.WellFormed) (v : Int) (b : List Int) (x : Int)
    (hv : v < 0) (hsw : solve_deps_switch c g T v = some b) :
    (0 ≤ x ∧ Reaches c g T v x) ↔ InClosure c g T b x := by
  unfold InClosure
  constructor
  · rintro ⟨hx, hr⟩
    cases hr with
    | here => omega
    | step hexp hq hr1 =>
      have h1 := expands_switch c g T hc v _ hexp
      rw [hsw] at h1
      injection h1 with h1
      subst h1
      exact ⟨hx, _, hq, hr1⟩
  · rintro ⟨hx, d, hd, hr⟩
    exact ⟨hx, Reaches.step (switch_expands c g T v b hsw) hd hr⟩

theorem scan_split_done_closure (c : NcHIPertGravSElem) (g : NcHIPertGravInfo)
    (T : NcHIPertGravTScalarInfo) (hc : c.WellFormed) (fuel : Nat) :
    ∀ (kept rest : List Int) (subs : Bool) (out : List Int) (s : Bool),
      scan_split c g T fuel kept rest subs = .done (out, s) →
      ∀ x, x ∈ out ↔ (x ∈ kept ∨ InClosure c g T rest x) := by
  induction fuel with
  | zero => intro kept rest subs out s h; simp [scan_split] at h
  | succ n ih =>
    intro kept rest subs out s h x
    cases rest with
    | nil =>
      simp only [scan_split, Outcome.done.injEq, Prod.mk.injEq] at h
      rw [← h.1]
      simp [InClosure]
    | cons v rest =>
      simp only [scan_split] at h
      rw [inClosure_cons]
      by_cases hv : v < 0
      · simp only [hv, if_true] at h
        cases hsw : solve_deps_switch c g T v with
        | none => simp [hsw] at h
        | some b =>
          simp only [hsw] at h
          rw [ih kept (rest ++ b) true out s h x, inClosure_append,
            reaches_placeholder c g T hc v b x hv hsw]
          tauto
      · simp only [hv, if_false] at h
        rw [ih (kept ++ [v]) rest subs out s h x]
        have hv0 : 0 ≤ v := not_lt.mp hv
        have key : (0 ≤ x ∧ Reaches c g T v x) ↔ x = v := by
          constructor
          · rintro ⟨_, hr⟩; exact reaches_of_nonneg c g T hc v x hv0 hr
          · rintro rfl; exact ⟨hv0, Reaches.here _⟩
        rw [key]
        simp only [List.mem_append, List.mem_singleton]
        tauto

theorem mem_pass_new (c : NcHIPertGravSElem) (g : NcHIPertGravInfo)
    (T : NcHIPertGravTScalarInfo) (q : Int) :
    ∀ (l : List Int), q ∈ pass_new c g T l →
      ∃ v ∈ l, v < 0 ∧ q ∈ (solve_deps_switch c g T v).getD [] := by
  intro l
  induction l with
  | nil => intro h; simp [pass_new] at h
  | cons v l ih =>
    intro h
    simp only [pass_new, List.mem_append] at h
    rcases h with h | h
    · by_cases hv : v < 0
      · simp only [hv, if_true] at h
        exact ⟨v, List.mem_cons_self _ _, hv, h⟩
      · simp [hv] at h
    · obtain ⟨w, hw, hw0, hq⟩ := ih h
      exact ⟨w, List.mem_cons_of_mem _ hw, hw0, hq⟩

theorem scan_split_pass (c : NcHIPertGravSElem) (g : NcHIPertGravInfo)
    (T : NcHIPertGravTScalarInfo) :
    ∀ (l : List Int), (∀ v ∈ l, v < 0 → (solve_deps_switch c g T v).isSome) →
      ∀ (fuel : Nat) (kept rest2 : List Int) (subs : Bool),
        scan_split c g T (fuel + l.length) kept (l ++ rest2) subs
          = scan_split c g T fuel (kept ++ pass_kept l) (rest2 ++ pass_new c g T l)
              (subs || l.any (fun v => decide (v < 0))) := by
  intro l
  induction l with
  | nil => intro _ fuel kept rest2 subs; simp [pass_kept, pass_new]
  | cons v l ih =>
    intro hl fuel kept rest2 subs
    have hl1 : ∀ w ∈ l, w < 0 → (solve_deps_switch c g T w).isSome :=
      fun w hw => hl w (List.mem_cons_of_mem _ hw)
    have hlen : fuel + (v :: l).length = (fuel + l.length) + 1 := by simp; omega
    rw [hlen, List.cons_append, scan_split]
    by_cases hv : v < 0
    · have hsome := hl v (List.mem_cons_self _ _) hv
      obtain ⟨b, hb⟩ := Option.isSome_iff_exists.mp hsome
      have hv0 : ¬ 0 ≤ v := not_le.mpr hv
      simp only [hv, if_true, hb]
      rw [List.append_assoc, ih hl1 fuel kept (rest2 ++ b) true]
      simp [pass_kept, pass_new, hv, hv0, hb]
    · have hv0 : 0 ≤ v := not_lt.mp hv
      simp only [hv, if_false]
      rw [ih hl1 fuel (kept ++ [v]) rest2 subs]
      simp [pass_kept, pass_new, hv, hv0]

theorem scan_split_terminates (c : NcHIPertGravSElem) (g : NcHIPertGravInfo)
    (T : NcHIPertGravTScalarInfo) (rank : Int → Nat) (S : Int → Prop)
    (hS : ∀ x, S x → x < 0 →
      ∃ b, solve_deps_switch c g T x = some b ∧ ∀ q ∈ b, S q ∧ (q < 0 → rank q < rank x)) :
    ∀ (k : Nat) (l : List Int), (∀ x ∈ l, S x) → (∀ x ∈ l, x < 0 → rank x < k) →
      ∀ (kept : List Int) (subs : Bool),
        ∃ (N : Nat) (res : List Int × Bool),
          ∀ fuel, N ≤ fuel → scan_split c g T fuel kept l subs = .done res := by
  intro k
  induction k with
  | zero =>
    intro l _ hr kept subs
    refine ⟨l.length + 1, (kept ++ l, subs), ?_⟩
    intro fuel hf
    apply scan_split_nonneg
    · intro x hx
      by_contra hneg
      exact Nat.not_lt_zero _ (hr x hx (not_le.mp hneg))
    · omega
  | succ k ih =>
    intro l hl hr kept subs
    have hsome : ∀ v ∈ l, v < 0 → (solve_deps_switch c g T v).isSome := by
      intro v hv hv0
      obtain ⟨b, hb, _⟩ := hS v (hl v hv) hv0
      simp [hb]
    have hnew : ∀ q ∈ pass_new c g T l, S q ∧ (q < 0 → rank q < k) := by
      intro q hq
      obtain ⟨v, hv, hv0, hqv⟩ := mem_pass_new c g T q l hq
      obtain ⟨b, hb, hbq⟩ := hS v (hl v hv) hv0
      rw [hb] at hqv
      have := hbq q hqv
      refine ⟨this.1, fun hq0 => ?_⟩
      have h1 := this.2 hq0
      have h2 := hr v hv hv0
      omega
    obtain ⟨N, res, hN⟩ := ih (pass_new c g T l) (fun q hq => (hnew q hq).1)
      (fun q hq => (hnew q hq).2) (kept ++ pass_kept l)
      (subs || l.any (fun v => decide (v < 0)))
    refine ⟨N + l.length, res, ?_⟩
    intro fuel hf
    have hfuel : fuel = (fuel - l.length) + l.length := by omega
    have hp := scan_split_pass c g T l hsome (fuel - l.length) kept [] subs
    rw [List.append_nil, ← hfuel, List.nil_append] at hp
    rw [hp]
    exact hN _ (by omega)

theorem reaches_snoc (c : NcHIPertGravSElem) (g : NcHIPertGravInfo)
    (T : NcHIPertGravTScalarInfo) (d p q : Int) (e : List Int)
    (h : Reaches c g T d p) (hexp : Expands c g T p e) (hq : q ∈ e) :
    Reaches c g T d q := by
  induction h with
  | here => exact Reaches.step hexp hq (Reaches.here _)
  | step hexp1 hq1 _ ih => exact Reaches.step hexp1 hq1 (ih hexp)

theorem switch_isSome_of_mem_codes (c : NcHIPertGravSElem) (g : NcHIPertGravInfo)
    (T : NcHIPertGravTScalarInfo) (v : Int) (h : v ∈ c.codes) :
    ∃ b, solve_deps_switch c g T v = some b := by
  simp only [NcHIPertGravSElem.codes, List.mem_cons, List.mem_singleton,
    List.not_mem_nil, or_false] at h
  unfold solve_deps_switch
  split_ifs <;> first | exact ⟨_, rfl⟩ | (exfalso; tauto)

theorem expands_mem_info_arrays (c : NcHIPertGravSElem) (g : NcHIPertGravInfo)
    (T : NcHIPertGravTScalarInfo) (v : Int) (e : List Int)
    (h : Expands c g T v e) : e ∈ info_arrays g T := by
  cases h <;> simp [info_arrays]

theorem reaches_mem_info_arrays (c : NcHIPertGravSElem) (g : NcHIPertGravInfo)
    (T : NcHIPertGravTScalarInfo) (d x : Int) (h : Reaches c g T d x) :
    x = d ∨ ∃ a ∈ info_arrays g T, x ∈ a := by
  induction h with
  | here => left; rfl
  | step hexp hq _ ih =>
    right
    rcases ih with h1 | h1
    · subst h1
      exact ⟨_, expands_mem_info_arrays c g T _ _ hexp, hq⟩
    · exact h1

theorem known_of_tables (c : NcHIPertGravSElem) (g : NcHIPertGravInfo)
    (T : NcHIPertGravTScalarInfo) (deps : List Int)
    (hd : ∀ x ∈ deps, x < 0 → x ∈ c.codes)
    (ht : ∀ a ∈ info_arrays g T, ∀ x ∈ a, x < 0 → x ∈ c.codes) :
    ∀ x, (∃ d ∈ deps, Reaches c g T d x) → x < 0 → x ∈ c.codes := by
  rintro x ⟨d, hd1, hr⟩ hx
  rcases reaches_mem_info_arrays c g T d x hr with h | ⟨a, ha, hxa⟩
  · subst h; exact hd x hd1 hx
  · exact ht a ha x hxa hx

theorem acyclic_of_tables (c : NcHIPertGravSElem) (g : NcHIPertGravInfo)
    (T : NcHIPertGravTScalarInfo) (hc : c.WellFormed) (deps : List Int) (rank : Int → Nat)
    (ht : ∀ p ∈ c.codes, ∀ q ∈ (solve_deps_switch c g T p).getD [], q < 0 → rank q < rank p) :
    ∀ p e q, (∃ d ∈ deps, Reaches c g T d p) → Expands c g T p e → q ∈ e →
      q < 0 → rank q < rank p := by
  intro p e q _ hexp hq hq0
  have h1 := expands_switch c g T hc p e hexp
  have h2 := ht p (expands_mem_codes c g T p e hexp) q (by rw [h1]; exact hq) hq0
  exact h2

/-- C2: for a dependency list whose placeholders are placeholders of the
enumeration and have acyclic expansions (a rank decreases along every
expansion reached from the list), `_nc_hipert_first_order_solve_deps` returns,
for every large enough fuel, one list whose values are exactly the dependency
closure of the input: the concrete indices of the input and every concrete
index reached by expanding placeholders repeatedly. -/
theorem solve_deps_closure (c : NcHIPertGravSElem) (g : NcHIPertGravInfo)
    (T : NcHIPertGravTScalarInfo) (hc : c.WellFormed) (deps : List Int)
    (rank : Int → Nat)
    (hknown : ∀ x, (∃ d ∈ deps, Reaches c g T d x) → x < 0 → x ∈ c.codes)
    (hacyc : ∀ p e q, (∃ d ∈ deps, Reaches c g T d p) → Expands c g T p e →
      q ∈ e → q < 0 → rank q < rank p) :
    ∃ (N : Nat) (out : List Int),
      (∀ fuel, N ≤ fuel →
        _nc_hipert_first_order_solve_deps c g T fuel deps 0 = .done out)
        ∧ ∀ x, x ∈ out ↔ InClosure c g T deps x := by
  have hS : ∀ x, (∃ d ∈ deps, Reaches c g T d x) → x < 0 →
      ∃ b, solve_deps_switch c g T x = some b ∧
        ∀ q ∈ b, (∃ d ∈ deps, Reaches c g T d q) ∧ (q < 0 → rank q < rank x) := by
    intro x hx hx0
    obtain ⟨b, hb⟩ := switch_isSome_of_mem_codes c g T x (hknown x hx hx0)
    refine ⟨b, hb, fun q hq => ⟨?_, fun hq0 => ?_⟩⟩
    · obtain ⟨d, hd, hr⟩ := hx
      exact ⟨d, hd, reaches_snoc c g T d x q b hr (switch_expands c g T x b hb) hq⟩
    · exact hacyc x b q hx (switch_expands c g T x b hb) hq hq0
  obtain ⟨N, res, hN⟩ := scan_split_terminates c g T rank
    (fun x => ∃ d ∈ deps, Reaches c g T d x) hS ((deps.map rank).sum + 1) deps
    (fun x hx => ⟨x, hx, Reaches.here x⟩)
    (fun x hx _ => Nat.lt_succ_of_le (List.single_le_sum (by simp) _ (List.mem_map_of_mem rank hx)))
    [] false
  obtain ⟨deps1, subs⟩ := res
  have hdone := hN N (le_refl _)
  have hmem := scan_split_done_closure c g T hc N [] deps false deps1 subs hdone
  have hnn := scan_split_done_nonneg c g T N [] deps false deps1 subs hdone (by simp)
  refine ⟨N + deps1.length + 3, solve_deps_sort_uniq deps1, ?_, ?_⟩
  · intro fuel hf
    obtain ⟨n, rfl⟩ : ∃ n, fuel = n + 1 := ⟨fuel - 1, by omega⟩
    rw [_nc_hipert_first_order_solve_deps]
    simp only [gt_iff_lt, Nat.not_lt_zero, if_false]
    have hsc := solve_deps_scan_eq_split c g T n [] deps false
    simp only [List.nil_append, List.length_nil] at hsc
    rw [hsc, hN n (by omega)]
    cases subs with
    | false => simp
    | true =>
      simp only [if_true]
      obtain ⟨m, rfl⟩ : ∃ m, n = m + 1 := ⟨n - 1, by omega⟩
      rw [_nc_hipert_first_order_solve_deps]
      have hsc1 := solve_deps_scan_eq_split c g T m [] deps1 false
      simp only [List.nil_append, List.length_nil] at hsc1
      rw [hsc1, scan_split_nonneg c g T deps1 [] false m hnn (by omega)]
      simp
  · intro x
    rw [mem_solve_deps_sort_uniq, hmem x]
    simp

theorem solve_deps_closure_witness :
    ∃ (N : Nat) (out : List Int),
      (∀ fuel, N ≤ fuel →
        _nc_hipert_first_order_solve_deps sample_codes sample_ginfo sample_Tsinfo fuel
          [-2, 5, -3, 0] 0 = .done out)
        ∧ ∀ x, x ∈ out ↔ InClosure sample_codes sample_ginfo sample_Tsinfo [-2, 5, -3, 0] x :=
  solve_deps_closure sample_codes sample_ginfo sample_Tsinfo (by decide) [-2, 5, -3, 0]
    sample_rank
    (known_of_tables sample_codes sample_ginfo sample_Tsinfo [-2, 5, -3, 0]
      (by decide) (by decide))
    (acyclic_of_tables sample_codes sample_ginfo sample_Tsinfo (by decide) [-2, 5, -3, 0]
      sample_rank (by decide))

theorem block_vars_succ (src : Int) (n : Nat) (gd : Nat → List Int) (pad m : Nat) :
    block_vars src (n + 1) gd pad m
      = block_vars src n gd pad m
        ++ [⟨src, ((m + n : Nat) : Int), _nc_hipert_first_order_add_pad (gd n) pad⟩] := by
  simp [block_vars, List.range_succ]

theorem block_vars_length (src : Int) (n : Nat) (gd : Nat → List Int) (pad m : Nat) :
    (block_vars src n gd pad m).length = n := by
  simp [block_vars]

theorem prepare_append_vars_eq (src : Int) (gd : Nat → List Int) (pad : Nat)
    (vars : List NcHIPertFirstOrderVar) (n : Nat) :
    prepare_append_vars src n gd pad vars = vars ++ block_vars src n gd pad vars.length := by
  induction n with
  | zero => simp [prepare_append_vars, block_vars]
  | succ n ih =>
    unfold prepare_append_vars at ih ⊢
    rw [List.range_succ, List.foldl_append, ih, block_vars_succ]
    simp [block_vars_length]

theorem comps_blocks_length : ∀ (comps : List (Option NcHIPertComp)) (i m : Nat),
    (comps_blocks comps i m).length = comps_ndyn comps := by
  intro comps
  induction comps with
  | nil => intro i m; rfl
  | cons oc comps ih =>
    intro i m
    cases oc with
    | none => simp [comps_blocks, comps_ndyn, ih]
    | some comp => simp [comps_blocks, comps_ndyn, ih, block_vars_length]

theorem prepare_comps_eq : ∀ (comps : List (Option NcHIPertComp)) (i : Nat)
    (vars : List NcHIPertFirstOrderVar) (Tsinfo : NcHIPertGravTScalarInfo),
    (prepare_comps comps i (vars, Tsinfo, vars.length)).1
      = vars ++ comps_blocks comps i vars.length := by
  intro comps
  induction comps with
  | nil => intro i vars Tsinfo; simp [prepare_comps, comps_blocks]
  | cons oc comps ih =>
    intro i vars Tsinfo
    cases oc with
    | none => simp only [prepare_comps, comps_blocks]; exact ih (i + 1) vars Tsinfo
    | some comp =>
      simp only [prepare_comps, comps_blocks]
      rw [ih, prepare_append_vars_eq]
      simp [block_vars_length]

theorem prepare_assemble_eq (grav : NcHIPertGrav) (comps : List (Option NcHIPertComp)) :
    (prepare_assemble grav comps).1
      = block_vars (-1) grav.ndyn_var grav.get_deps 0 0
        ++ comps_blocks comps 0 grav.ndyn_var := by
  unfold prepare_assemble
  simp only
  rw [prepare_comps_eq, prepare_append_vars_eq]
  simp [block_vars_length]

theorem block_vars_map_src (src : Int) (n : Nat) (gd : Nat → List Int) (pad m : Nat) :
    (block_vars src n gd pad m).map (fun v => v.src) = List.replicate n src := by
  induction n with
  | zero => simp [block_vars]
  | succ n ih => rw [block_vars_succ, List.map_append, ih, List.replicate_succ']; simp

theorem comps_blocks_map_src : ∀ (comps : List (Option NcHIPertComp)) (i m : Nat),
    (comps_blocks comps i m).map (fun v => v.src) = comps_owners comps i := by
  intro comps
  induction comps with
  | nil => intro i m; rfl
  | cons oc comps ih =>
    intro i m
    cases oc with
    | none => simp only [comps_blocks, comps_owners]; exact ih (i + 1) m
    | some comp =>
      simp only [comps_blocks, comps_owners, List.map_append, block_vars_map_src]
      rw [ih]

theorem block_vars_map_index (src : Int) (n : Nat) (gd : Nat → List Int) (pad m : Nat) :
    (block_vars src n gd pad m).map (fun v => v.index)
      = (List.range n).map (fun p => ((m + p : Nat) : Int)) := by
  simp [block_vars]

theorem comps_blocks_map_index : ∀ (comps : List (Option NcHIPertComp)) (i m : Nat),
    (comps_blocks comps i m).map (fun v => v.index)
      = (List.range (comps_ndyn comps)).map (fun p => ((m + p : Nat) : Int)) := by
  intro comps
  induction comps with
  | nil => intro i m; simp [comps_blocks, comps_ndyn]
  | cons oc comps ih =>
    intro i m
    cases oc with
    | none => simp only [comps_blocks, comps_ndyn]; exact ih (i + 1) m
    | some comp =>
      simp only [comps_blocks, comps_ndyn, List.map_append, block_vars_map_index]
      rw [ih, List.range_add, List.map_append, List.map_map]
      congr 1
      apply List.map_congr_left
      intro p _
      simp only [Function.comp]
      congr 1
      omega

/-- C6: before reordering, the table assembled by
`_nc_hipert_first_order_prepare_internal` (gravity provider present) is the
block of the `grav_ndyn` gravity variables followed by the blocks of the
non-NULL registry slots in ascending slot order; its length is `grav_ndyn` plus
the sum of `ndyn` over the non-NULL slots, the owners are `-1` for the gravity
variables and the slot number for the variables of a slot, and the variable at
position `p` has index `p`. -/
theorem prepare_assemble_layout (grav : NcHIPertGrav) (comps : List (Option NcHIPertComp)) :
    (prepare_assemble grav comps).1
        = block_vars (-1) grav.ndyn_var grav.get_deps 0 0
          ++ comps_blocks comps 0 grav.ndyn_var
      ∧ (prepare_assemble grav comps).1.length = grav.ndyn_var + comps_ndyn comps
      ∧ (prepare_assemble grav comps).1.map (fun v => v.src)
          = List.replicate grav.ndyn_var (-1) ++ comps_owners comps 0
      ∧ (prepare_assemble grav comps).1.map (fun v => v.index)
          = (List.range (prepare_assemble grav comps).1.length).map (fun (p : Nat) => (p : Int)) := by
  have hlen : (prepare_assemble grav comps).1.length = grav.ndyn_var + comps_ndyn comps := by
    rw [prepare_assemble_eq]
    simp [block_vars_length, comps_blocks_length]
  refine ⟨prepare_assemble_eq grav comps, hlen, ?_, ?_⟩
  · rw [prepare_assemble_eq, List.map_append, block_vars_map_src, comps_blocks_map_src]
  · rw [hlen, prepare_assemble_eq, List.map_append, block_vars_map_index,
      comps_blocks_map_index, List.range_add, List.map_append, List.map_map]
    congr 1
    simp

theorem foldl_pair_bound {α : Type} (f : Int × Int → α → Int × Int)
    (P : α → Int × Int → Prop)
    (hmono : ∀ b x, b.1 ≤ (f b x).1 ∧ b.2 ≤ (f b x).2)
    (hP : ∀ b x, P x (f b x))
    (hup : ∀ x b b2, P x b → b.1 ≤ b2.1 → b.2 ≤ b2.2 → P x b2) :
    ∀ (l : List α) (b : Int × Int),
      (b.1 ≤ (l.foldl f b).1 ∧ b.2 ≤ (l.foldl f b).2) ∧ ∀ x ∈ l, P x (l.foldl f b) := by
  intro l
  induction l with
  | nil => intro b; simp
  | cons a l ih =>
    intro b
    simp only [List.foldl_cons]
    have h1 := ih (f b a)
    have h2 := hmono b a
    refine ⟨⟨le_trans h2.1 h1.1.1, le_trans h2.2 h1.1.2⟩, ?_⟩
    intro x hx
    rcases List.mem_cons.mp hx with h | h
    · subst h
      exact hup x _ _ (hP b x) h1.1.1 h1.1.2
    · exact h1.2 x h

theorem arrange_bandwidth_row_bound (perm_inv : List Int) (i : Nat) (deps : List Int)
    (bw : Int × Int) :
    (bw.1 ≤ (arrange_bandwidth_row perm_inv i deps bw).1
      ∧ bw.2 ≤ (arrange_bandwidth_row perm_inv i deps bw).2)
    ∧ ∀ d ∈ deps,
        new_position perm_inv d.toNat - (i : Int) ≤ (arrange_bandwidth_row perm_inv i deps bw).1
        ∧ (i : Int) - new_position perm_inv d.toNat
            ≤ (arrange_bandwidth_row perm_inv i deps bw).2 := by
  have h := foldl_pair_bound
    (fun (b : Int × Int) (d : Int) =>
      ((max b.1 (perm_inv.getD d.toNat 0 - 1 - (i : Int)),
        max b.2 ((i : Int) - (perm_inv.getD d.toNat 0 - 1))) : Int × Int))
    (fun (d : Int) (b : Int × Int) => perm_inv.getD d.toNat 0 - 1 - (i : Int) ≤ b.1
      ∧ (i : Int) - (perm_inv.getD d.toNat 0 - 1) ≤ b.2)
    (by intro b x; exact ⟨le_max_left _ _, le_max_left _ _⟩)
    (by intro b x; exact ⟨le_max_right _ _, le_max_right _ _⟩)
    (by intro x b b2 h h1 h2; exact ⟨le_trans h.1 h1, le_trans h.2 h2⟩) deps bw
  exact h

theorem arrange_bandwidth_bound (vars : List NcHIPertFirstOrderVar) (perm perm_inv : List Int) :
    ∀ i ∈ List.range vars.length,
      ∀ d ∈ (vars.getD (perm.getD i 0 - 1).toNat default).deps,
        new_position perm_inv d.toNat - (i : Int) ≤ (arrange_bandwidth vars perm perm_inv).1
        ∧ (i : Int) - new_position perm_inv d.toNat
            ≤ (arrange_bandwidth vars perm perm_inv).2 := by
  unfold arrange_bandwidth
  have h := foldl_pair_bound
    (fun bw i =>
      arrange_bandwidth_row perm_inv i (vars.getD (perm.getD i 0 - 1).toNat default).deps bw)
    (fun i b => ∀ d ∈ (vars.getD (perm.getD i 0 - 1).toNat default).deps,
        new_position perm_inv d.toNat - (i : Int) ≤ b.1
        ∧ (i : Int) - new_position perm_inv d.toNat ≤ b.2)
    (fun b x => (arrange_bandwidth_row_bound perm_inv x _ b).1)
    (fun b x => (arrange_bandwidth_row_bound perm_inv x _ b).2)
    (fun x b b2 h h1 h2 d hd => ⟨le_trans (h d hd).1 h1, le_trans (h d hd).2 h2⟩)
    (List.range vars.length) (0, 0)
  exact h.2

theorem arrange_write_index_getElem? (perm : List Int) :
    ∀ (vars : List NcHIPertFirstOrderVar) (i k : Nat),
      (arrange_write_index perm vars i)[k]?
        = (vars[k]?).map (fun var => { var with index := perm.getD (i + k) 0 - 1 }) := by
  intro vars
  induction vars with
  | nil => intro i k; simp [arrange_write_index]
  | cons v vars ih =>
    intro i k
    cases k with
    | zero => simp [arrange_write_index]
    | succ k =>
      simp only [arrange_write_index, List.getElem?_cons_succ]
      rw [ih (i + 1) k]
      congr 1
      funext var
      congr 3
      omega

theorem arrange_write_index_length (perm : List Int) :
    ∀ (vars : List NcHIPertFirstOrderVar) (i : Nat),
      (arrange_write_index perm vars i).length = vars.length := by
  intro vars
  induction vars with
  | nil => intro i; rfl
  | cons v vars ih => intro i; simp [arrange_write_index, ih]

theorem arrange_write_index_deps (perm : List Int) (vars : List NcHIPertFirstOrderVar)
    (k : Nat) :
    ((arrange_write_index perm vars 0).getD k default).deps = (vars.getD k default).deps := by
  simp only [List.getD_eq_getElem?_getD, arrange_write_index_getElem?]
  cases vars[k]? with
  | none => rfl
  | some v => rfl

/-- C7: bandwidth validity.  When `perm` and `perm_inv` hold mutually inverse
permutations of `1 .. n` and every resolved dependency is in `0 .. n - 1`, after
`_nc_hipert_first_order_arrange_vars` every variable `k` and every dependency
`d` of `k` satisfy `-mlower <= pos (d) - pos (k) <= mupper`, with
`pos (x) = perm_inv[x] - 1`, hence `|pos (d) - pos (k)| <= max (mupper, mlower)`. -/
theorem arrange_vars_bandwidth_valid (fo : NcHIPertFirstOrderPrivate)
    (perm perm_inv : List Int)
    (hinv : MutuallyInverse fo.vars.length perm perm_inv) (_hdeps : DepsInRange fo.vars)
    (k : Nat) (hk : k < fo.vars.length) (d : Int) (hd : d ∈ (fo.vars.getD k default).deps) :
    -(arrange_vars_from fo perm perm_inv).mlower
        ≤ new_position perm_inv d.toNat - new_position perm_inv k
      ∧ new_position perm_inv d.toNat - new_position perm_inv k
        ≤ (arrange_vars_from fo perm perm_inv).mupper
      ∧ |new_position perm_inv d.toNat - new_position perm_inv k|
        ≤ max (arrange_vars_from fo perm perm_inv).mupper
            (arrange_vars_from fo perm perm_inv).mlower := by
  obtain ⟨_, _, _, h4⟩ := hinv
  obtain ⟨hk1, hk2, hk3⟩ := h4 k hk
  have hrow : (new_position perm_inv k).toNat < fo.vars.length := by
    unfold new_position; omega
  have hcast : (((new_position perm_inv k).toNat : Nat) : Int) = new_position perm_inv k := by
    unfold new_position; omega
  have hb := arrange_bandwidth_bound (arrange_write_index perm fo.vars 0) perm perm_inv
    (new_position perm_inv k).toNat
    (by rw [arrange_write_index_length]; exact List.mem_range.mpr hrow) d
    (by
      rw [arrange_write_index_deps]
      have : (perm.getD (new_position perm_inv k).toNat 0 - 1).toNat = k := by
        have h5 : (new_position perm_inv k).toNat = (perm_inv.getD k 0 - 1).toNat := rfl
        rw [h5, hk3]; omega
      rw [this]; exact hd)
  rw [hcast] at hb
  have hup : (arrange_vars_from fo perm perm_inv).mupper
      = (arrange_bandwidth (arrange_write_index perm fo.vars 0) perm perm_inv).1 := rfl
  have hlo : (arrange_vars_from fo perm perm_inv).mlower
      = (arrange_bandwidth (arrange_write_index perm fo.vars 0) perm perm_inv).2 := rfl
  rw [hup, hlo]
  refine ⟨by omega, hb.1, ?_⟩
  rw [abs_le]
  constructor
  · have := le_max_right (arrange_bandwidth (arrange_write_index perm fo.vars 0) perm perm_inv).1
      (arrange_bandwidth (arrange_write_index perm fo.vars 0) perm perm_inv).2
    omega
  · exact le_trans hb.1 (le_max_left _ _)

theorem arrange_vars_bandwidth_valid_witness :
    -(arrange_vars_from sample_path_fo [2, 3, 1] [3, 1, 2]).mlower
        ≤ new_position [3, 1, 2] (2 : Int).toNat - new_position [3, 1, 2] 0
      ∧ new_position [3, 1, 2] (2 : Int).toNat - new_position [3, 1, 2] 0
        ≤ (arrange_vars_from sample_path_fo [2, 3, 1] [3, 1, 2]).mupper
      ∧ |new_position [3, 1, 2] (2 : Int).toNat - new_position [3, 1, 2] 0|
        ≤ max (arrange_vars_from sample_path_fo [2, 3, 1] [3, 1, 2]).mupper
            (arrange_vars_from sample_path_fo [2, 3, 1] [3, 1, 2]).mlower :=
  arrange_vars_bandwidth_valid sample_path_fo [2, 3, 1] [3, 1, 2] (by decide) (by decide)
    0 (by decide) 2 (by decide)

/-- C8 (the code at the failing input): for the table of three variables in
which 0 and 1 depend on 2, `genrcm` orders the nodes as `perm = [2, 3, 1]`
with inverse `perm_inv = [3, 1, 2]`; `_nc_hipert_first_order_arrange_vars`
writes the indices `perm[i] - 1`, that is 1, 2, 0, while the positions
`perm_inv[i] - 1` that its bandwidth scan uses for the same variables are
2, 0, 1. -/
theorem arrange_vars_index_not_position :
    genrcm 3 (adj_neighbours sample_path_fo.vars) = [2, 3, 1]
      ∧ perm_inverse3 3 [2, 3, 1] = [3, 1, 2]
      ∧ MutuallyInverse 3 [2, 3, 1] [3, 1, 2]
      ∧ (_nc_hipert_first_order_arrange_vars sample_path_fo).vars.map (fun v => v.index)
          = [1, 2, 0]
      ∧ (arrange_vars_from sample_path_fo [2, 3, 1] [3, 1, 2]).vars.map (fun v => v.index)
          = [1, 2, 0]
      ∧ (List.range 3).map (new_position [3, 1, 2]) = [2, 0, 1] := by
  decide

theorem rcm_found_props (nbr : Nat → List Nat) (deg : Nat → Nat) (n : Nat)
    (_hrange : ∀ u w, w ∈ nbr u → w < n) (hnodup : ∀ u, (nbr u).Nodup)
    (v : Nat) (seen : List Nat) :
    (((nbr v).filter (fun w => decide (w ∉ seen))).insertionSort
        (fun a b => deg a ≤ deg b)).Nodup
      ∧ ∀ x, x ∈ ((nbr v).filter (fun w => decide (w ∉ seen))).insertionSort
          (fun a b => deg a ≤ deg b) ↔ (x ∈ nbr v ∧ x ∉ seen) := by
  have hp := List.perm_insertionSort (fun a b => deg a ≤ deg b)
    ((nbr v).filter (fun w => decide (w ∉ seen)))
  refine ⟨hp.nodup_iff.mpr ((hnodup v).filter _), fun x => ?_⟩
  rw [hp.mem_iff, List.mem_filter]
  simp

theorem rcm_bfs_shape (nbr : Nat → List Nat) (deg : Nat → Nat) (n : Nat)
    (hrange : ∀ u w, w ∈ nbr u → w < n) (hnodup : ∀ u, (nbr u).Nodup) (fuel : Nat) :
    ∀ (seen queue : List Nat),
      ∃ extra, rcm_bfs nbr deg fuel seen queue = queue ++ extra ∧ extra.Nodup
        ∧ ∀ x ∈ extra, x ∉ seen ∧ x < n := by
  induction fuel with
  | zero => intro seen queue; exact ⟨[], by simp [rcm_bfs], List.nodup_nil, by simp⟩
  | succ f ih =>
    intro seen queue
    cases queue with
    | nil => exact ⟨[], by simp [rcm_bfs], List.nodup_nil, by simp⟩
    | cons v queue =>
      obtain ⟨hfn, hfm⟩ := rcm_found_props nbr deg n hrange hnodup v seen
      obtain ⟨extra, he, hen, hex⟩ := ih
        (seen ++ ((nbr v).filter (fun w => decide (w ∉ seen))).insertionSort
          (fun a b => deg a ≤ deg b))
        (queue ++ ((nbr v).filter (fun w => decide (w ∉ seen))).insertionSort
          (fun a b => deg a ≤ deg b))
      refine ⟨((nbr v).filter (fun w => decide (w ∉ seen))).insertionSort
          (fun a b => deg a ≤ deg b) ++ extra, ?_, ?_, ?_⟩
      · simp only [rcm_bfs]
        rw [he]
        simp
      · rw [List.nodup_append]
        refine ⟨hfn, hen, ?_⟩
        intro x hx1 hx2
        exact (hex x hx2).1 (List.mem_append_right _ hx1)
      · intro x hx
        rcases List.mem_append.mp hx with h | h
        · have := (hfm x).mp h
          exact ⟨this.2, hrange v x this.1⟩
        · have := hex x h
          exact ⟨fun hs => this.1 (List.mem_append_left _ hs), this.2⟩

theorem nodup_length_le_of_lt (n : Nat) (l : List Nat) (hn : l.Nodup) (hl : ∀ x ∈ l, x < n) :
    l.length ≤ n := by
  have h := (List.subperm_of_subset hn
    (fun x hx => List.mem_range.mpr (hl x hx) : l ⊆ List.range n)).length_le
  simpa using h

theorem rcm_unseen_append (n : Nat) (seen found : List Nat) (hn : found.Nodup)
    (hf : ∀ x ∈ found, x ∉ seen ∧ x < n) :
    rcm_unseen n (seen ++ found) + found.length ≤ rcm_unseen n seen := by
  unfold rcm_unseen
  have hnd : ((List.range n).filter (fun w => decide (w ∉ seen ++ found)) ++ found).Nodup := by
    rw [List.nodup_append]
    refine ⟨(List.nodup_range n).filter _, hn, ?_⟩
    intro x hx1 hx2
    rw [List.mem_filter] at hx1
    simp only [List.mem_append, not_or, decide_eq_true_eq] at hx1
    exact hx1.2.2 hx2
  have hsub : (List.range n).filter (fun w => decide (w ∉ seen ++ found)) ++ found
      ⊆ (List.range n).filter (fun w => decide (w ∉ seen)) := by
    intro x hx
    rw [List.mem_filter]
    rcases List.mem_append.mp hx with h | h
    · rw [List.mem_filter] at h
      simp only [List.mem_append, not_or, decide_eq_true_eq] at h
      exact ⟨h.1, by simpa using h.2.1⟩
    · exact ⟨List.mem_range.mpr (hf x h).2, by simpa using (hf x h).1⟩
  have h := (List.subperm_of_subset hnd hsub).length_le
  simpa using h

theorem rcm_unseen_root (n : Nat) (out : List Nat) (root : Nat) (hr : root < n)
    (hro : root ∉ out) : 1 + rcm_unseen n (out ++ [root]) ≤ n := by
  have h := rcm_unseen_append n out [root] (List.nodup_singleton _)
    (by intro x hx; simp only [List.mem_singleton] at hx; subst hx; exact ⟨hro, hr⟩)
  have h2 : rcm_unseen n out ≤ n := by
    unfold rcm_unseen
    have := List.length_filter_le (fun w => decide (w ∉ out)) (List.range n)
    simpa using this
  simp only [List.length_singleton] at h
  omega

theorem rcm_bfs_closed (nbr : Nat → List Nat) (deg : Nat → Nat) (n : Nat)
    (hrange : ∀ u w, w ∈ nbr u → w < n) (hnodup : ∀ u, (nbr u).Nodup) (fuel : Nat) :
    ∀ (seen queue : List Nat), queue.length + rcm_unseen n seen ≤ fuel →
      ∀ u ∈ rcm_bfs nbr deg fuel seen queue, ∀ w ∈ nbr u,
        w ∈ seen ∨ w ∈ rcm_bfs nbr deg fuel seen queue := by
  induction fuel with
  | zero =>
    intro seen queue hf u hu
    have : queue = [] := List.eq_nil_of_length_eq_zero (by omega)
    subst this
    simp [rcm_bfs] at hu
  | succ f ih =>
    intro seen queue hf u hu w hw
    cases queue with
    | nil => simp [rcm_bfs] at hu
    | cons v queue =>
      obtain ⟨hfn, hfm⟩ := rcm_found_props nbr deg n hrange hnodup v seen
      have hcount := rcm_unseen_append n seen _ hfn
        (fun x hx => ⟨((hfm x).mp hx).2, hrange v x ((hfm x).mp hx).1⟩)
      obtain ⟨extra, he, _, _⟩ := rcm_bfs_shape nbr deg n hrange hnodup f
        (seen ++ ((nbr v).filter (fun w => decide (w ∉ seen))).insertionSort
          (fun a b => deg a ≤ deg b))
        (queue ++ ((nbr v).filter (fun w => decide (w ∉ seen))).insertionSort
          (fun a b => deg a ≤ deg b))
      have hfound_res : ∀ x, x ∈ ((nbr v).filter (fun w => decide (w ∉ seen))).insertionSort
          (fun a b => deg a ≤ deg b) →
          x ∈ rcm_bfs nbr deg f
            (seen ++ ((nbr v).filter (fun w => decide (w ∉ seen))).insertionSort
              (fun a b => deg a ≤ deg b))
            (queue ++ ((nbr v).filter (fun w => decide (w ∉ seen))).insertionSort
              (fun a b => deg a ≤ deg b)) := by
        intro x hx
        rw [he]
        exact List.mem_append_left _ (List.mem_append_right _ hx)
      have hih := ih
        (seen ++ ((nbr v).filter (fun w => decide (w ∉ seen))).insertionSort
          (fun a b => deg a ≤ deg b))
        (queue ++ ((nbr v).filter (fun w => decide (w ∉ seen))).insertionSort
          (fun a b => deg a ≤ deg b))
        (by simp only [List.length_append, List.length_cons] at hf ⊢; omega)
      simp only [rcm_bfs, List.mem_cons] at hu ⊢
      rcases hu with hu | hu
      · subst hu
        by_cases hws : w ∈ seen
        · exact Or.inl hws
        · exact Or.inr (Or.inr (hfound_res w ((hfm w).mpr ⟨hw, hws⟩)))
      · rcases hih u hu w hw with h | h
        · rcases List.mem_append.mp h with h1 | h1
          · exact Or.inl h1
          · exact Or.inr (Or.inr (hfound_res w h1))
        · exact Or.inr (Or.inr h)

theorem rcm_conn_props (nbr : Nat → List Nat) (n : Nat) (visited : List Nat)
    (hrange : ∀ u w, w ∈ nbr u → w < n) (a x : Nat) (ha : a < n) (hav : a ∉ visited)
    (h : Relation.ReflTransGen (rcm_step nbr n visited) a x) : x < n ∧ x ∉ visited := by
  induction h with
  | refl => exact ⟨ha, hav⟩
  | tail _ hstep _ => exact ⟨hrange _ _ hstep.1, hstep.2.2.1⟩

theorem rcm_conn_symm (nbr : Nat → List Nat) (n : Nat) (visited : List Nat)
    (hrange : ∀ u w, w ∈ nbr u → w < n) (hsymm : ∀ u w, u < n → w ∈ nbr u → u ∈ nbr w)
    (a x : Nat) (h : Relation.ReflTransGen (rcm_step nbr n visited) a x) :
    Relation.ReflTransGen (rcm_step nbr n visited) x a := by
  have hs : Symmetric (rcm_step nbr n visited) := by
    intro u w huw
    exact ⟨hsymm u w huw.2.2.2 huw.1, huw.2.2.1, huw.2.1, hrange u w huw.1⟩
  exact Relation.ReflTransGen.symmetric hs h

theorem rcm_conn_mem_closed (nbr : Nat → List Nat) (n : Nat) (visited res : List Nat)
    (root x : Nat) (hroot : root ∈ res)
    (hclosed : ∀ u ∈ res, ∀ w ∈ nbr u, w ∈ visited ++ [root] ∨ w ∈ res)
    (h : Relation.ReflTransGen (rcm_step nbr n visited) root x) : x ∈ res := by
  induction h with
  | refl => exact hroot
  | tail _ hstep ih =>
    rcases hclosed _ ih _ hstep.1 with h1 | h1
    · rcases List.mem_append.mp h1 with h2 | h2
      · exact absurd h2 hstep.2.2.1
      · simp only [List.mem_singleton] at h2
        rw [h2]; exact hroot
    · exact h1

theorem level_set_sound (nbr : Nat → List Nat) (n : Nat) (visited : List Nat)
    (hrange : ∀ u w, w ∈ nbr u → w < n) (a : Nat) (ha : a < n) (hav : a ∉ visited)
    (fuel : Nat) :
    ∀ (seen cur : List Nat), (∀ x ∈ visited, x ∈ seen) →
      (∀ x ∈ cur, Relation.ReflTransGen (rcm_step nbr n visited) a x) →
      ∀ level ∈ level_set nbr fuel seen cur, ∀ x ∈ level,
        Relation.ReflTransGen (rcm_step nbr n visited) a x := by
  induction fuel with
  | zero => intro seen cur _ _ level hl; simp [level_set] at hl
  | succ f ih =>
    intro seen cur hseen hcur level hl x hx
    cases cur with
    | nil => simp [level_set] at hl
    | cons v cur =>
      simp only [level_set, List.mem_cons] at hl
      rcases hl with hl | hl
      · subst hl; exact hcur x hx
      · refine ih _ _ (fun y hy => List.mem_append_left _ (hseen y hy)) ?_ level hl x hx
        intro y hy
        rw [List.mem_filter, List.mem_dedup, List.mem_flatMap] at hy
        obtain ⟨⟨u, hu, hyu⟩, hys⟩ := hy
        have hys1 : y ∉ seen := by simpa using hys
        have hcu := hcur u hu
        have hup := rcm_conn_props nbr n visited hrange a u ha hav hcu
        exact Relation.ReflTransGen.tail hcu
          ⟨hyu, hup.2, fun hyv => hys1 (hseen y hyv), hup.1⟩

theorem min_degree_node_mem (deg : Nat → Nat) : ∀ (l : List Nat) (best : Nat),
    min_degree_node deg best l ∈ best :: l := by
  intro l
  induction l with
  | nil => intro best; simp [min_degree_node]
  | cons w l ih =>
    intro best
    simp only [min_degree_node]
    have := ih (if deg w < deg best then w else best)
    split_ifs at this ⊢ with hlt
    · rcases List.mem_cons.mp this with h | h
      · rw [h]; simp
      · exact List.mem_cons_of_mem _ (List.mem_cons_of_mem _ h)
    · rcases List.mem_cons.mp this with h | h
      · rw [h]; simp
      · exact List.mem_cons_of_mem _ (List.mem_cons_of_mem _ h)

theorem root_find_loop_sound (nbr : Nat → List Nat) (deg : Nat → Nat) (n : Nat)
    (visited : List Nat) (hrange : ∀ u w, w ∈ nbr u → w < n) (a : Nat) (ha : a < n)
    (hav : a ∉ visited) (iccsze : Nat) (fuel : Nat) :
    ∀ (root : Nat) (ls : List (List Nat)),
      Relation.ReflTransGen (rcm_step nbr n visited) a root →
      (∀ level ∈ ls, ∀ x ∈ level, Relation.ReflTransGen (rcm_step nbr n visited) a x) →
      Relation.ReflTransGen (rcm_step nbr n visited) a
        (root_find_loop nbr deg n visited iccsze fuel root ls) := by
  induction fuel with
  | zero => intro root ls hroot _; exact hroot
  | succ f ih =>
    intro root ls hroot hls
    have hlast : ∀ x ∈ ls.getLastD [], Relation.ReflTransGen (rcm_step nbr n visited) a x := by
      intro x hx
      rcases List.mem_cons.mp (List.getLastD_mem_cons ls []) with h | h
      · rw [h] at hx; simp at hx
      · exact hls _ h x hx
    have hcand : Relation.ReflTransGen (rcm_step nbr n visited) a
        (min_degree_node deg ((ls.getLastD []).headD root) (ls.getLastD []).tail) := by
      have hm := min_degree_node_mem deg (ls.getLastD []).tail ((ls.getLastD []).headD root)
      have hhead : Relation.ReflTransGen (rcm_step nbr n visited) a
          ((ls.getLastD []).headD root) := by
        cases hq : ls.getLastD [] with
        | nil => exact hroot
        | cons y l => rw [hq] at hlast; exact hlast y (List.mem_cons_self _ _)
      rcases List.mem_cons.mp hm with h | h
      · rw [h]; exact hhead
      · exact hlast _ (List.mem_of_mem_tail h)
    have hcp := rcm_conn_props nbr n visited hrange a _ ha hav hcand
    have hls2 : ∀ level ∈ level_set nbr (n + 1)
        (visited ++ [min_degree_node deg ((ls.getLastD []).headD root) (ls.getLastD []).tail])
        [min_degree_node deg ((ls.getLastD []).headD root) (ls.getLastD []).tail],
        ∀ x ∈ level, Relation.ReflTransGen (rcm_step nbr n visited) a x := by
      intro level hl x hx
      have := level_set_sound nbr n visited hrange _ hcp.1 hcp.2 (n + 1) _ _
        (fun y hy => List.mem_append_left _ hy)
        (by intro y hy; simp only [List.mem_singleton] at hy; rw [hy]) level hl x hx
      exact Relation.ReflTransGen.trans hcand this
    simp only [root_find_loop]
    split_ifs
    · exact hcand
    · exact hcand
    · exact ih _ _ hcand hls2

theorem root_find_sound (nbr : Nat → List Nat) (deg : Nat → Nat) (n : Nat)
    (visited : List Nat) (hrange : ∀ u w, w ∈ nbr u → w < n) (a : Nat) (ha : a < n)
    (hav : a ∉ visited) :
    Relation.ReflTransGen (rcm_step nbr n visited) a (root_find nbr deg n visited a) := by
  unfold root_find
  simp only
  split_ifs
  · exact Relation.ReflTransGen.refl
  · apply root_find_loop_sound nbr deg n visited hrange a ha hav
    · exact Relation.ReflTransGen.refl
    · intro level hl x hx
      exact level_set_sound nbr n visited hrange a ha hav (n + 1) _ _
        (fun y hy => List.mem_append_left _ hy)
        (by intro y hy; simp only [List.mem_singleton] at hy; rw [hy]) level hl x hx

theorem rcm_component_props (nbr : Nat → List Nat) (deg : Nat → Nat) (n : Nat)
    (hrange : ∀ u w, w ∈ nbr u → w < n) (hnodup : ∀ u, (nbr u).Nodup)
    (hsymm : ∀ u w, u < n → w ∈ nbr u → u ∈ nbr w)
    (out : List Nat) (i : Nat) (hi : i < n) (hio : i ∉ out) :
    (rcm_bfs nbr deg n (out ++ [root_find nbr deg n out i])
        [root_find nbr deg n out i]).Nodup
      ∧ (∀ x ∈ rcm_bfs nbr deg n (out ++ [root_find nbr deg n out i])
          [root_find nbr deg n out i], x < n ∧ x ∉ out)
      ∧ i ∈ rcm_bfs nbr deg n (out ++ [root_find nbr deg n out i])
          [root_find nbr deg n out i] := by
  have hconn := root_find_sound nbr deg n out hrange i hi hio
  have hrp := rcm_conn_props nbr n out hrange i _ hi hio hconn
  obtain ⟨extra, he, hen, hex⟩ := rcm_bfs_shape nbr deg n hrange hnodup n
    (out ++ [root_find nbr deg n out i]) [root_find nbr deg n out i]
  have hclosed := rcm_bfs_closed nbr deg n hrange hnodup n
    (out ++ [root_find nbr deg n out i]) [root_find nbr deg n out i]
    (by
      have := rcm_unseen_root n out _ hrp.1 hrp.2
      simp only [List.length_singleton]
      omega)
  have hroot : root_find nbr deg n out i
      ∈ rcm_bfs nbr deg n (out ++ [root_find nbr deg n out i])
        [root_find nbr deg n out i] := by
    rw [he]; simp
  refine ⟨?_, ?_, ?_⟩
  · rw [he, List.singleton_append, List.nodup_cons]
    refine ⟨fun hx => ?_, hen⟩
    exact (hex _ hx).1 (List.mem_append_right _ (List.mem_singleton_self _))
  · intro x hx
    rw [he, List.singleton_append] at hx
    rcases List.mem_cons.mp hx with h | h
    · rw [h]; exact hrp
    · exact ⟨(hex x h).2, fun ho => (hex x h).1 (List.mem_append_left _ ho)⟩
  · exact rcm_conn_mem_closed nbr n out _ _ i hroot hclosed
      (rcm_conn_symm nbr n out hrange hsymm i _ hconn)

theorem genrcm_loop_props (nbr : Nat → List Nat) (deg : Nat → Nat) (n : Nat)
    (hrange : ∀ u w, w ∈ nbr u → w < n) (hnodup : ∀ u, (nbr u).Nodup)
    (hsymm : ∀ u w, u < n → w ∈ nbr u → u ∈ nbr w) :
    ∀ (rest out : List Nat), (∀ i ∈ rest, i < n) → out.Nodup → (∀ x ∈ out, x < n) →
      (genrcm_loop nbr deg n rest out).Nodup
        ∧ (∀ x ∈ genrcm_loop nbr deg n rest out, x < n)
        ∧ (∀ x ∈ out, x ∈ genrcm_loop nbr deg n rest out)
        ∧ (∀ i ∈ rest, i ∈ genrcm_loop nbr deg n rest out) := by
  intro rest
  induction rest with
  | nil => intro out _ hn ho; simp [genrcm_loop, hn]; exact ho
  | cons i rest ih =>
    intro out hrest hn ho
    have hrest1 : ∀ j ∈ rest, j < n := fun j hj => hrest j (List.mem_cons_of_mem _ hj)
    simp only [genrcm_loop]
    by_cases hio : i ∈ out
    · simp only [hio, if_true]
      obtain ⟨h1, h2, h3, h4⟩ := ih out hrest1 hn ho
      refine ⟨h1, h2, h3, ?_⟩
      intro j hj
      rcases List.mem_cons.mp hj with h | h
      · rw [h]; exact h3 i hio
      · exact h4 j h
    · simp only [hio, if_false]
      obtain ⟨c1, c2, c3⟩ := rcm_component_props nbr deg n hrange hnodup hsymm out i
        (hrest i (List.mem_cons_self _ _)) hio
      have hn1 : (out ++ (rcm_bfs nbr deg n (out ++ [root_find nbr deg n out i])
          [root_find nbr deg n out i]).reverse).Nodup := by
        rw [List.nodup_append]
        refine ⟨hn, List.nodup_reverse.mpr c1, ?_⟩
        intro x hx1 hx2
        exact (c2 x (List.mem_reverse.mp hx2)).2 hx1
      have ho1 : ∀ x ∈ out ++ (rcm_bfs nbr deg n (out ++ [root_find nbr deg n out i])
          [root_find nbr deg n out i]).reverse, x < n := by
        intro x hx
        rcases List.mem_append.mp hx with h | h
        · exact ho x h
        · exact (c2 x (List.mem_reverse.mp h)).1
      obtain ⟨h1, h2, h3, h4⟩ := ih _ hrest1 hn1 ho1
      refine ⟨h1, h2, fun x hx => h3 x (List.mem_append_left _ hx), ?_⟩
      intro j hj
      rcases List.mem_cons.mp hj with h | h
      · rw [h]
        exact h3 i (List.mem_append_right _ (List.mem_reverse.mpr c3))
      · exact h4 j h

theorem genrcm_loop_perm (nbr : Nat → List Nat) (deg : Nat → Nat) (n : Nat)
    (hrange : ∀ u w, w ∈ nbr u → w < n) (hnodup : ∀ u, (nbr u).Nodup)
    (hsymm : ∀ u w, u < n → w ∈ nbr u → u ∈ nbr w) :
    (genrcm_loop nbr deg n (List.range n) []).Perm (List.range n) := by
  obtain ⟨h1, h2, _, h4⟩ := genrcm_loop_props nbr deg n hrange hnodup hsymm (List.range n) []
    (fun i hi => List.mem_range.mp hi) List.nodup_nil (by simp)
  rw [List.perm_ext_iff_of_nodup h1 (List.nodup_range n)]
  intro a
  exact ⟨fun ha => List.mem_range.mpr (h2 a ha), fun ha => h4 a ha⟩

theorem mem_adj_neighbours (vars : List NcHIPertFirstOrderVar) (u w : Nat) :
    w ∈ adj_neighbours vars u
      ↔ w < vars.length ∧ w ≠ u ∧ (adj_edge vars u w = true ∨ adj_edge vars w u = true) := by
  unfold adj_neighbours
  rw [List.mem_filter, List.mem_range]
  simp

theorem adj_neighbours_range (vars : List NcHIPertFirstOrderVar) (u w : Nat)
    (h : w ∈ adj_neighbours vars u) : w < vars.length :=
  ((mem_adj_neighbours vars u w).mp h).1

theorem adj_neighbours_nodup (vars : List NcHIPertFirstOrderVar) (u : Nat) :
    (adj_neighbours vars u).Nodup :=
  (List.nodup_range _).filter _

theorem adj_neighbours_symm (vars : List NcHIPertFirstOrderVar) (u w : Nat)
    (hu : u < vars.length) (h : w ∈ adj_neighbours vars u) : u ∈ adj_neighbours vars w := by
  rw [mem_adj_neighbours] at h ⊢
  exact ⟨hu, Ne.symm h.2.1, h.2.2.symm⟩

theorem genrcm_perm (vars : List NcHIPertFirstOrderVar) :
    (genrcm vars.length (adj_neighbours vars)).Perm
      ((List.range vars.length).map (fun (p : Nat) => (p : Int) + 1)) := by
  unfold genrcm
  exact (genrcm_loop_perm (adj_neighbours vars) _ vars.length (adj_neighbours_range vars)
    (adj_neighbours_nodup vars) (adj_neighbours_symm vars)).map _

theorem arrange_write_index_map_index (perm : List Int) :
    ∀ (vars : List NcHIPertFirstOrderVar) (i : Nat), i + vars.length = perm.length →
      (arrange_write_index perm vars i).map (fun v => v.index)
        = (perm.drop i).map (fun p => p - 1) := by
  intro vars
  induction vars with
  | nil =>
    intro i hi
    simp only [List.length_nil, Nat.add_zero] at hi
    simp [arrange_write_index, hi]
  | cons v vars ih =>
    intro i hi
    simp only [List.length_cons] at hi
    have hlt : i < perm.length := by omega
    rw [List.drop_eq_getElem_cons hlt]
    simp only [arrange_write_index, List.map_cons]
    rw [ih (i + 1) (by omega), List.getD_eq_getElem perm 0 hlt]

/-- C9: for every table of `n` variables, connected or not, the index fields
that `_nc_hipert_first_order_arrange_vars` writes back from the ordering of
`genrcm` hold every value of `0 .. n - 1` exactly once. -/
theorem arrange_vars_index_permutation (fo : NcHIPertFirstOrderPrivate) :
    ((_nc_hipert_first_order_arrange_vars fo).vars.map (fun v => v.index)).Perm
        ((List.range fo.vars.length).map (fun (p : Nat) => (p : Int)))
      ∧ (_nc_hipert_first_order_arrange_vars fo).vars.length = fo.vars.length := by
  have hp := genrcm_perm fo.vars
  have hlen : (genrcm fo.vars.length (adj_neighbours fo.vars)).length = fo.vars.length := by
    simpa using hp.length_eq
  have hvars : (_nc_hipert_first_order_arrange_vars fo).vars
      = arrange_write_index (genrcm fo.vars.length (adj_neighbours fo.vars)) fo.vars 0 := rfl
  rw [hvars]
  refine ⟨?_, arrange_write_index_length _ _ _⟩
  rw [arrange_write_index_map_index _ fo.vars 0 (by omega), List.drop_zero]
  have h2 := hp.map (fun p => p - 1)
  rw [List.map_map] at h2
  have h3 : ((fun (p : Int) => p - 1) ∘ fun (p : Nat) => (p : Int) + 1)
      = fun (p : Nat) => (p : Int) := by
    funext p
    simp
  rw [h3] at h2
  exact h2

theorem arrange_write_index_map_deps (perm : List Int) :
    ∀ (vars : List NcHIPertFirstOrderVar) (i : Nat),
      (arrange_write_index perm vars i).map (fun v => v.deps) = vars.map (fun v => v.deps) := by
  intro vars
  induction vars with
  | nil => intro i; rfl
  | cons v vars ih => intro i; simp [arrange_write_index, ih]

theorem arrange_vars_frame (fo : NcHIPertFirstOrderPrivate) :
    _nc_hipert_first_order_arrange_vars fo
      = { fo with
          vars := (_nc_hipert_first_order_arrange_vars fo).vars
          mupper := (_nc_hipert_first_order_arrange_vars fo).mupper
          mlower := (_nc_hipert_first_order_arrange_vars fo).mlower } := rfl

theorem prepare_internal_cases (c : NcHIPertGravSElem) (fuel : Nat)
    (fo fo1 : NcHIPertFirstOrderPrivate)
    (h : _nc_hipert_first_order_prepare_internal c fuel fo = .done fo1) :
    (fo.grav = none ∧ fo1 = fo)
      ∨ ∃ grav vars1, fo.grav = some grav
          ∧ prepare_resolve c grav.get_G_scalar_info (prepare_assemble grav fo.comps).2 fuel
              (prepare_assemble grav fo.comps).1 = .done vars1
          ∧ fo1 = _nc_hipert_first_order_arrange_vars { fo with vars := vars1 } := by
  unfold _nc_hipert_first_order_prepare_internal at h
  split at h
  · rename_i hg
    injection h with h
    exact Or.inl ⟨hg, h.symm⟩
  · rename_i grav hg
    simp only at h
    split at h
    · rename_i vars1 hr
      injection h with h
      exact Or.inr ⟨grav, vars1, hg, hr, h.symm⟩
    · exact Outcome.noConfusion h
    · exact Outcome.noConfusion h
    · exact Outcome.noConfusion h

theorem prepare_internal_done (c : NcHIPertGravSElem) (fuel : Nat)
    (fo fo1 : NcHIPertFirstOrderPrivate)
    (h : _nc_hipert_first_order_prepare_internal c fuel fo = .done fo1) :
    fo1 = { fo with vars := fo1.vars, mupper := fo1.mupper, mlower := fo1.mlower } := by
  rcases prepare_internal_cases c fuel fo fo1 h with ⟨_, h1⟩ | ⟨grav, vars1, _, _, h1⟩
  · rw [h1]
  · rw [h1]
    rfl

theorem g_ptr_array_set_size_length {α : Type} (a : List (Option α)) (len : Nat) :
    (g_ptr_array_set_size a len).length = len := by
  unfold g_ptr_array_set_size
  simp only [List.length_append, List.length_take, List.length_replicate]
  omega

theorem g_ptr_array_set_size_same {α : Type} (a : List (Option α)) :
    g_ptr_array_set_size a a.length = a := by
  unfold g_ptr_array_set_size
  simp

theorem g_ptr_array_set_size_nil {α : Type} (len : Nat) :
    g_ptr_array_set_size ([] : List (Option α)) len = List.replicate len none := by
  unfold g_ptr_array_set_size
  simp

/-- C11: when the registry is sized and the slot of the id of a component that
is not a gravitation component is taken, `nc_hipert_first_order_add_comp`
returns and leaves the whole state as it was: the component of the slot, every
other slot, the active list, the gauge, the variable table and the bandwidth
pair; the new component is dropped and the slot still holds the one entry for
that id. -/
theorem add_comp_duplicate_dropped (S : NcHIPertGaugeSetters) (c : NcHIPertGravSElem)
    (fuel : Nat) (fo : NcHIPertFirstOrderPrivate) (comp old : NcHIPertComp)
    (hgrav : comp.is_grav = false) (hid : 0 ≤ comp.id)
    (hlen : fo.comps.length = fo.bg_var_len)
    (hslot : fo.comps[comp.id.toNat]? = some (some old)) :
    nc_hipert_first_order_add_comp S c fuel fo comp = .after (.done fo) := by
  have hlt : comp.id.toNat < fo.comps.length := by
    by_contra hc
    rw [List.getElem?_eq_none (not_lt.mp hc)] at hslot
    exact Option.noConfusion hslot
  have hid2 : comp.id < (fo.bg_var_len : Int) := by omega
  unfold nc_hipert_first_order_add_comp
  simp only [hgrav, Bool.false_eq_true, if_false, ge_iff_le, hid, not_true_eq_false, hid2]
  have hs : g_ptr_array_set_size fo.comps fo.bg_var_len = fo.comps := by
    rw [← hlen]
    exact g_ptr_array_set_size_same _
  rw [hs, List.getD_eq_getElem?_getD, hslot]
  rfl

theorem add_comp_duplicate_dropped_witness :
    nc_hipert_first_order_add_comp sample_setters sample_codes 10 sample_registry_fo other_comp1
      = .after (.done sample_registry_fo) :=
  add_comp_duplicate_dropped sample_setters sample_codes 10 sample_registry_fo other_comp1
    pair_comp1 rfl (by decide) rfl rfl

theorem add_comp_registers (S : NcHIPertGaugeSetters) (c : NcHIPertGravSElem)
    (fuel : Nat) (fo : NcHIPertFirstOrderPrivate) (comp : NcHIPertComp)
    (hgrav : comp.is_grav = false) (hid0 : 0 ≤ comp.id)
    (hid1 : comp.id < (fo.bg_var_len : Int))
    (hfree : (g_ptr_array_set_size fo.comps fo.bg_var_len).getD comp.id.toNat none = none) :
    nc_hipert_first_order_add_comp S c fuel fo comp
      = .after (_nc_hipert_first_order_prepare_internal c fuel
          { fo with
            comps := (g_ptr_array_set_size fo.comps fo.bg_var_len).set comp.id.toNat
              (some (S.nc_hipert_comp_set_gauge comp fo.gauge))
            active_comps := fo.active_comps ++ [S.nc_hipert_comp_set_gauge comp fo.gauge] }) := by
  unfold nc_hipert_first_order_add_comp
  simp only [hgrav, Bool.false_eq_true, if_false, ge_iff_le, hid0, not_true_eq_false, hid1]
  rw [hfree]

theorem registry_comps_replicate (n : Nat) :
    registry_comps (List.replicate n none) = [] := by
  induction n with
  | zero => rfl
  | succ n ih =>
    rw [List.replicate_succ]
    unfold registry_comps at ih ⊢
    rw [List.filterMap_cons_none rfl]
    exact ih

theorem g_ptr_array_set_size_cases {α : Type} (a : List (Option α)) (len : Nat)
    (h : a = [] ∨ a.length = len) :
    g_ptr_array_set_size a len = a ∨ (a = [] ∧ g_ptr_array_set_size a len = List.replicate len none) := by
  rcases h with h | h
  · right
    exact ⟨h, by rw [h]; exact g_ptr_array_set_size_nil len⟩
  · left
    rw [← h]
    exact g_ptr_array_set_size_same a

theorem registry_comps_set : ∀ (l : List (Option NcHIPertComp)) (i : Nat) (x : NcHIPertComp),
    l[i]? = some none →
    (registry_comps (l.set i (some x))).Perm (x :: registry_comps l) := by
  intro l
  induction l with
  | nil => intro i x h; simp at h
  | cons a t ih =>
    intro i x h
    cases i with
    | zero =>
      simp only [List.getElem?_cons_zero, Option.some.injEq] at h
      subst h
      simp [registry_comps]
    | succ i =>
      simp only [List.getElem?_cons_succ] at h
      have := ih i x h
      cases a with
      | none =>
        simpa [registry_comps] using this
      | some y =>
        simp only [registry_comps, List.set_cons_succ, List.filterMap_cons_some] at this ⊢
        exact (List.Perm.cons y this).trans (List.Perm.swap x y _)

theorem mem_registry_comps (l : List (Option NcHIPertComp)) (comp : NcHIPertComp) :
    comp ∈ registry_comps l ↔ ∃ i : Nat, l[i]? = some (some comp) := by
  unfold registry_comps
  rw [List.mem_filterMap]
  constructor
  · rintro ⟨a, ha, rfl⟩
    exact List.mem_iff_getElem?.mp ha
  · intro h
    exact ⟨some comp, List.mem_iff_getElem?.mpr h, rfl⟩

theorem registry_ids_sorted : ∀ (l : List (Option NcHIPertComp)) (k : Int),
    (∀ (i : Nat) (comp : NcHIPertComp), l[i]? = some (some comp) → comp.id = k + (i : Int)) →
    ((registry_comps l).map (fun comp => comp.id)).Pairwise (fun a b => a < b)
      ∧ ∀ x ∈ (registry_comps l).map (fun comp => comp.id), k ≤ x := by
  intro l
  induction l with
  | nil => intro k _; simp [registry_comps]
  | cons a t ih =>
    intro k h
    have ht := ih (k + 1) (by
      intro i comp hi
      have := h (i + 1) comp (by simpa using hi)
      rw [this]; push_cast; ring)
    cases a with
    | none =>
      have e : registry_comps (none :: t) = registry_comps t := by simp [registry_comps]
      rw [e]
      exact ⟨ht.1, fun x hx => by have := ht.2 x hx; omega⟩
    | some y =>
      have e : registry_comps (some y :: t) = y :: registry_comps t := by simp [registry_comps]
      have hy : y.id = k := by simpa using h 0 y (by simp)
      rw [e, List.map_cons, List.pairwise_cons]
      refine ⟨⟨fun x hx => ?_, ht.1⟩, fun x hx => ?_⟩
      · have := ht.2 x hx; omega
      · rcases List.mem_cons.mp hx with hx | hx
        · omega
        · have := ht.2 x hx; omega

theorem add_comp_after_args (S : NcHIPertGaugeSetters) (c : NcHIPertGravSElem)
    (fuel : Nat) (fo : NcHIPertFirstOrderPrivate) (comp : NcHIPertComp)
    (o : Outcome NcHIPertFirstOrderPrivate)
    (h : nc_hipert_first_order_add_comp S c fuel fo comp = .after o) :
    comp.is_grav = false ∧ 0 ≤ comp.id ∧ comp.id < (fo.bg_var_len : Int) := by
  unfold nc_hipert_first_order_add_comp at h
  by_cases hg : comp.is_grav = true
  · rw [if_pos hg] at h
    exact AddOutcome.noConfusion h
  · rw [if_neg hg] at h
    by_cases h0 : comp.id ≥ 0
    · rw [if_neg (not_not.mpr h0)] at h
      by_cases h1 : comp.id < (fo.bg_var_len : Int)
      · exact ⟨by simpa using hg, h0, h1⟩
      · rw [if_pos h1] at h
        exact AddOutcome.noConfusion h
    · rw [if_pos h0] at h
      exact AddOutcome.noConfusion h

theorem add_comp_taken (S : NcHIPertGaugeSetters) (c : NcHIPertGravSElem)
    (fuel : Nat) (fo : NcHIPertFirstOrderPrivate) (comp y : NcHIPertComp)
    (hgrav : comp.is_grav = false) (hid0 : 0 ≤ comp.id)
    (hid1 : comp.id < (fo.bg_var_len : Int))
    (htaken : (g_ptr_array_set_size fo.comps fo.bg_var_len).getD comp.id.toNat none = some y) :
    nc_hipert_first_order_add_comp S c fuel fo comp
      = .after (.done { fo with comps := g_ptr_array_set_size fo.comps fo.bg_var_len }) := by
  unfold nc_hipert_first_order_add_comp
  simp only [hgrav, Bool.false_eq_true, if_false, ge_iff_le, hid0, not_true_eq_false, hid1]
  rw [htaken]

theorem registry_sized (fo : NcHIPertFirstOrderPrivate) (hinv : RegistryInv fo) :
    (∀ (i : Nat) (comp : NcHIPertComp),
        (g_ptr_array_set_size fo.comps fo.bg_var_len)[i]? = some (some comp) →
        comp.id = (i : Int))
      ∧ registry_comps (g_ptr_array_set_size fo.comps fo.bg_var_len) = registry_comps fo.comps := by
  rcases g_ptr_array_set_size_cases fo.comps fo.bg_var_len hinv.2.2 with h | ⟨h0, h⟩
  · rw [h]
    exact ⟨hinv.1, rfl⟩
  · rw [h, h0]
    refine ⟨?_, ?_⟩
    · intro i comp hi
      rw [List.getElem?_replicate] at hi
      split at hi
      · simp at hi
      · simp at hi
    · rw [registry_comps_replicate]
      rfl

theorem add_comp_step (S : NcHIPertGaugeSetters) (c : NcHIPertGravSElem)
    (fuel : Nat) (fo fo1 : NcHIPertFirstOrderPrivate) (comp : NcHIPertComp)
    (hS : S.KeepsId) (hinv : RegistryInv fo)
    (h : nc_hipert_first_order_add_comp S c fuel fo comp = .after (.done fo1)) :
    RegistryInv fo1 ∧ fo1.bg_var_len = fo.bg_var_len
      ∧ ((comp.id ∈ fo.active_comps.map (fun x => x.id) ∧ fo1.active_comps = fo.active_comps)
        ∨ (comp.id ∉ fo.active_comps.map (fun x => x.id)
            ∧ fo1.active_comps = fo.active_comps ++ [S.nc_hipert_comp_set_gauge comp fo.gauge])) := by
  obtain ⟨hgrav, hid0, hid1⟩ := add_comp_after_args S c fuel fo comp _ h
  obtain ⟨hI1, hreg⟩ := registry_sized fo hinv
  have hlen := g_ptr_array_set_size_length fo.comps fo.bg_var_len
  have hidx : comp.id.toNat < (g_ptr_array_set_size fo.comps fo.bg_var_len).length := by
    rw [hlen]; omega
  have hcast : ((comp.id.toNat : Nat) : Int) = comp.id := Int.toNat_of_nonneg hid0
  cases hslot : (g_ptr_array_set_size fo.comps fo.bg_var_len).getD comp.id.toNat none with
  | some y =>
    rw [add_comp_taken S c fuel fo comp y hgrav hid0 hid1 hslot] at h
    injection h with h
    injection h with h
    have hget : (g_ptr_array_set_size fo.comps fo.bg_var_len)[comp.id.toNat]? = some (some y) := by
      rw [List.getD_eq_getElem?_getD, List.getElem?_eq_getElem hidx] at hslot
      rw [List.getElem?_eq_getElem hidx]
      simpa using hslot
    have hy : y.id = comp.id := by rw [hI1 _ y hget, hcast]
    have hmem : y ∈ fo.active_comps := by
      apply (hinv.2.1.mem_iff).mpr
      rw [← hreg]
      exact (mem_registry_comps _ y).mpr ⟨_, hget⟩
    subst h
    refine ⟨⟨hI1, ?_, Or.inr hlen⟩, rfl, Or.inl ⟨?_, rfl⟩⟩
    · show fo.active_comps.Perm (registry_comps (g_ptr_array_set_size fo.comps fo.bg_var_len))
      rw [hreg]
      exact hinv.2.1
    · exact List.mem_map.mpr ⟨y, hmem, hy⟩
  | none =>
    rw [add_comp_registers S c fuel fo comp hgrav hid0 hid1 hslot] at h
    injection h with h
    have hfr := prepare_internal_done c fuel _ fo1 h
    have hget : (g_ptr_array_set_size fo.comps fo.bg_var_len)[comp.id.toNat]? = some none := by
      rw [List.getD_eq_getElem?_getD, List.getElem?_eq_getElem hidx] at hslot
      rw [List.getElem?_eq_getElem hidx]
      simpa using hslot
    have hc : fo1.comps = (g_ptr_array_set_size fo.comps fo.bg_var_len).set comp.id.toNat
        (some (S.nc_hipert_comp_set_gauge comp fo.gauge)) := by rw [hfr]
    have ha : fo1.active_comps
        = fo.active_comps ++ [S.nc_hipert_comp_set_gauge comp fo.gauge] := by rw [hfr]
    have hb : fo1.bg_var_len = fo.bg_var_len := by rw [hfr]
    have hnot : comp.id ∉ fo.active_comps.map (fun x => x.id) := by
      intro hm
      obtain ⟨y, hy, hyid⟩ := List.mem_map.mp hm
      have hyr : y ∈ registry_comps (g_ptr_array_set_size fo.comps fo.bg_var_len) := by
        rw [hreg]
        exact (hinv.2.1.mem_iff).mp hy
      obtain ⟨i, hi⟩ := (mem_registry_comps _ y).mp hyr
      have hyi := hI1 i y hi
      have hii : i = comp.id.toNat := by
        have : (i : Int) = comp.id := by rw [← hyi]; exact hyid
        omega
      rw [hii, hget] at hi
      simp at hi
    refine ⟨⟨?_, ?_, ?_⟩, hb, Or.inr ⟨hnot, ha⟩⟩
    · intro i comp2 hi
      rw [hc, List.getElem?_set] at hi
      split at hi
      · rename_i heq
        simp only [Option.some.injEq] at hi
        rw [← hi, hS, ← heq, hcast]
      · exact hI1 i comp2 hi
    · rw [hc, ha]
      refine List.Perm.trans ?_ (registry_comps_set _ _ _ hget).symm
      refine List.Perm.trans (List.perm_append_comm) ?_
      simp only [List.singleton_append]
      refine List.Perm.cons _ ?_
      rw [hreg]
      exact hinv.2.1
    · right
      rw [hc, List.length_set, hlen, hb]

theorem registry_inv_init (k : NcHIPertFirstOrderInteg) (gauge_len : Int) (len : Nat) :
    RegistryInv (nc_hipert_first_order_init k gauge_len len) := by
  refine ⟨?_, ?_, Or.inl rfl⟩
  · intro i comp h
    simp [nc_hipert_first_order_init] at h
  · exact List.Perm.refl _

theorem add_comp_seq_cons (S : NcHIPertGaugeSetters) (c : NcHIPertGravSElem) (fuel : Nat)
    (fo fo1 : NcHIPertFirstOrderPrivate) (comp : NcHIPertComp) (rest : List NcHIPertComp)
    (h : add_comp_seq S c fuel fo (comp :: rest) = some fo1) :
    ∃ fo2, nc_hipert_first_order_add_comp S c fuel fo comp = .after (.done fo2)
      ∧ add_comp_seq S c fuel fo2 rest = some fo1 := by
  unfold add_comp_seq at h
  split at h
  · rename_i fo2 heq
    exact ⟨fo2, heq, h⟩
  · simp at h

theorem add_comp_seq_inv (S : NcHIPertGaugeSetters) (c : NcHIPertGravSElem) (fuel : Nat)
    (hS : S.KeepsId) : ∀ (calls : List NcHIPertComp) (fo fo1 : NcHIPertFirstOrderPrivate),
    RegistryInv fo → add_comp_seq S c fuel fo calls = some fo1 →
    RegistryInv fo1 ∧ fo1.bg_var_len = fo.bg_var_len := by
  intro calls
  induction calls with
  | nil =>
    intro fo fo1 hinv h
    simp only [add_comp_seq, Option.some.injEq] at h
    subst h
    exact ⟨hinv, rfl⟩
  | cons comp rest ih =>
    intro fo fo1 hinv h
    obtain ⟨fo2, h1, h2⟩ := add_comp_seq_cons S c fuel fo fo1 comp rest h
    have hs := add_comp_step S c fuel fo fo2 comp hS hinv h1
    have := ih fo2 fo1 hs.1 h2
    exact ⟨this.1, this.2.trans hs.2.1⟩

theorem registry_comps_length (l : List (Option NcHIPertComp)) :
    (registry_comps l).length = (l.filter (fun slot => slot.isSome)).length := by
  induction l with
  | nil => rfl
  | cons a t ih =>
    cases a with
    | none => simpa [registry_comps] using ih
    | some y => simpa [registry_comps] using ih

/-- C20: after every sequence of `nc_hipert_first_order_add_comp` calls that
returned, in any order of ids and with any duplicates, started from the state
made by `nc_hipert_first_order_init`, the active list holds exactly the
components of the non-NULL registry slots, each once (it is a permutation of
them and its ids are pairwise different), its length is the number of non-NULL
slots, and the component in slot `i` has the id `i`; and a call that returns
from any state that keeps `RegistryInv`, with or without a gravity provider,
leaves a state that keeps it.  The gauge setter is taken to leave the id of a
component as it is. -/
theorem add_comp_registry_invariant (S : NcHIPertGaugeSetters) (c : NcHIPertGravSElem)
    (fuel : Nat) (k : NcHIPertFirstOrderInteg) (gauge_len : Int) (len : Nat)
    (calls : List NcHIPertComp) (hS : S.KeepsId)
    (hret : (add_comp_seq S c fuel (nc_hipert_first_order_init k gauge_len len) calls).isSome
      = true) :
    ∃ fo, add_comp_seq S c fuel (nc_hipert_first_order_init k gauge_len len) calls = some fo
      ∧ fo.active_comps.Perm (registry_comps fo.comps)
      ∧ (fo.active_comps.map (fun x => x.id)).Nodup
      ∧ (∀ comp, comp ∈ fo.active_comps ↔ ∃ i : Nat, fo.comps[i]? = some (some comp))
      ∧ fo.active_comps.length = (fo.comps.filter (fun slot => slot.isSome)).length
      ∧ (∀ (i : Nat) (comp : NcHIPertComp), fo.comps[i]? = some (some comp) →
          comp.id = (i : Int))
      ∧ (∀ (fo2 fo3 : NcHIPertFirstOrderPrivate) (comp : NcHIPertComp), RegistryInv fo2 →
          nc_hipert_first_order_add_comp S c fuel fo2 comp = .after (.done fo3) →
          RegistryInv fo3) := by
  obtain ⟨fo, hfo⟩ := Option.isSome_iff_exists.mp hret
  have hinv := (add_comp_seq_inv S c fuel hS calls _ fo (registry_inv_init k gauge_len len) hfo).1
  have hsorted := (registry_ids_sorted fo.comps 0 (by
      intro i comp hi
      rw [hinv.1 i comp hi]
      simp)).1
  refine ⟨fo, hfo, hinv.2.1, ?_, ?_, ?_, hinv.1,
    fun fo2 fo3 comp h2 h3 => (add_comp_step S c fuel fo2 fo3 comp hS h2 h3).1⟩
  · have hn : ((registry_comps fo.comps).map (fun x => x.id)).Nodup :=
      hsorted.imp (fun h => ne_of_lt h)
    exact ((hinv.2.1.map (fun (x : NcHIPertComp) => x.id)).nodup_iff).mpr hn
  · intro comp
    rw [hinv.2.1.mem_iff]
    exact mem_registry_comps _ comp
  · rw [hinv.2.1.length_eq]
    exact registry_comps_length _

theorem add_comp_registry_invariant_witness :
    ∃ fo, add_comp_seq marking_setters sample_codes 10
          (nc_hipert_first_order_init sample_integ 0 3)
          [pair_comp1, pair_comp0, other_comp1] = some fo
      ∧ fo.active_comps.Perm (registry_comps fo.comps)
      ∧ (fo.active_comps.map (fun x => x.id)).Nodup
      ∧ (∀ comp, comp ∈ fo.active_comps ↔ ∃ i : Nat, fo.comps[i]? = some (some comp))
      ∧ fo.active_comps.length = (fo.comps.filter (fun slot => slot.isSome)).length
      ∧ (∀ (i : Nat) (comp : NcHIPertComp), fo.comps[i]? = some (some comp) →
          comp.id = (i : Int))
      ∧ (∀ (fo2 fo3 : NcHIPertFirstOrderPrivate) (comp : NcHIPertComp), RegistryInv fo2 →
          nc_hipert_first_order_add_comp marking_setters sample_codes 10 fo2 comp
            = .after (.done fo3) →
          RegistryInv fo3) :=
  add_comp_registry_invariant marking_setters sample_codes 10 sample_integ 0 3
    [pair_comp1, pair_comp0, other_comp1] (fun _ _ => rfl) (by decide)

theorem prepare_integrator_resize_eq (fo : NcHIPertFirstOrderPrivate) :
    prepare_integrator_resize fo
      = if fo.cur_sys_size ≠ fo.vars.length then
          { fo with
            cvode := none
            cvode_init := if fo.cvode.isSome then false else fo.cvode_init
            arkode := none
            arkode_init := if fo.arkode.isSome then false else fo.arkode_init
            cur_sys_size := fo.vars.length
            y := some fo.vars.length
            abstol_v := some fo.vars.length }
        else fo := by
  obtain ⟨grav, comps, vars, mu, ml, ac, gauge, len, cvode, ci, arkode, ai, css, y, av, integ⟩ := fo
  cases cvode <;> cases arkode <;> simp [prepare_integrator_resize]

theorem prepare_integrator_resize_frame (fo : NcHIPertFirstOrderPrivate) :
    (prepare_integrator_resize fo).integ = fo.integ
      ∧ (prepare_integrator_resize fo).vars = fo.vars
      ∧ (prepare_integrator_resize fo).mupper = fo.mupper
      ∧ (prepare_integrator_resize fo).mlower = fo.mlower := by
  rw [prepare_integrator_resize_eq]
  split_ifs <;> simp

theorem prepare_integrator_resize_cvode_none (fo : NcHIPertFirstOrderPrivate)
    (hnull : fo.cvode = none) (hflag : fo.cvode_init = false) :
    (prepare_integrator_resize fo).cvode = none
      ∧ (prepare_integrator_resize fo).cvode_init = false := by
  rw [prepare_integrator_resize_eq]
  split_ifs <;> simp [hnull, hflag]

theorem prepare_integrator_resize_size (fo : NcHIPertFirstOrderPrivate) :
    (prepare_integrator_resize fo).cur_sys_size = fo.vars.length := by
  rw [prepare_integrator_resize_eq]
  by_cases hc : fo.cur_sys_size ≠ fo.vars.length
  · rw [if_pos hc]
  · rw [if_neg hc]
    exact not_not.mp hc

theorem prepare_integrator_resize_vec (fo : NcHIPertFirstOrderPrivate)
    (hvec : fo.cur_sys_size ≠ fo.vars.length ∨ fo.abstol_v.isSome = true) :
    (prepare_integrator_resize fo).abstol_v.isSome = true := by
  rw [prepare_integrator_resize_eq]
  by_cases hc : fo.cur_sys_size ≠ fo.vars.length
  · rw [if_pos hc]
    rfl
  · rw [if_neg hc]
    rcases hvec with hvec | hvec
    · exact absurd hvec hc
    · exact hvec

theorem sundials_run_none (flag_ok : Option (List SundialsCall) → SundialsCall → Bool) :
    ∀ calls : List SundialsCall, (sundials_run flag_ok none calls).1 = none := by
  intro calls
  induction calls with
  | nil => rfl
  | cons call rest ih =>
    unfold sundials_run
    split_ifs
    · exact ih
    · rfl

theorem sundials_run_ok (flag_ok : Option (List SundialsCall) → SundialsCall → Bool)
    (hok : ∀ h call, flag_ok (some h) call = true) :
    ∀ (calls : List SundialsCall) (h : List SundialsCall),
      sundials_run flag_ok (some h) calls = (some (h ++ calls), true) := by
  intro calls
  induction calls with
  | nil => intro h; simp [sundials_run]
  | cons call rest ih =>
    intro h
    unfold sundials_run
    rw [if_pos (hok _ _)]
    simp only [Option.map_some']
    rw [ih]
    simp

/-- C15 (divergence): with CVODE selected and Uninitialized (no handle, init
flag FALSE) every call of `_nc_hipert_first_order_prepare_integrator` that
returns leaves CVODE Uninitialized: the case tests `if (cvode_init)`, so the
call runs `CVodeReInit` on the NULL handle and never `CVodeCreate`.  With the
init flag of CVODE set, at the size of the table, and every SUNDIALS call on a
handle succeeding, the call does not reinitialize the stored handle: it stores
a new handle made by `CVodeCreate` and set up from the start. -/
theorem cvode_init_test_inverted (k : NcHIPertFirstOrderInteg)
    (flag_ok : Option (List SundialsCall) → SundialsCall → Bool)
    (fo fo2 : NcHIPertFirstOrderPrivate)
    (hsel : fo.integ = k.CVODE) (hnull : fo.cvode = none) (hflag : fo.cvode_init = false)
    (hsel2 : fo2.integ = k.CVODE) (hflag2 : fo2.cvode_init = true)
    (hsize : fo2.cur_sys_size = fo2.vars.length) (hvec : fo2.abstol_v.isSome = true)
    (hok : ∀ h2 call, flag_ok (some h2) call = true) :
    (∀ fo1, (_nc_hipert_first_order_prepare_integrator k flag_ok fo).state = some fo1 →
        fo1.cvode = none ∧ fo1.cvode_init = false)
      ∧ ∃ fo3, _nc_hipert_first_order_prepare_integrator k flag_ok fo2 = .returned fo3
          ∧ fo3.cvode = some (SundialsCall.Create :: cvode_init_calls fo2)
          ∧ fo3.cvode ≠ fo2.cvode.map (fun l => l ++ reinit_calls)
          ∧ fo3.cvode_init = true := by
  constructor
  · intro fo1 hst
    obtain ⟨hc, hi⟩ := prepare_integrator_resize_cvode_none fo hnull hflag
    have hint := (prepare_integrator_resize_frame fo).1
    unfold _nc_hipert_first_order_prepare_integrator at hst
    simp only [] at hst
    split at hst
    · simp [IntegOutcome.state] at hst
    · rw [if_pos (hint.trans hsel), hi] at hst
      simp only [Bool.false_eq_true, if_false, hc] at hst
      have hr := sundials_run_none flag_ok reinit_calls
      split at hst
      · simp only [IntegOutcome.state, Option.some.injEq] at hst
        subst hst
        exact ⟨hr, rfl⟩
      · simp only [IntegOutcome.state, Option.some.injEq] at hst
        subst hst
        exact ⟨hr, rfl⟩
  · have hres : prepare_integrator_resize fo2 = fo2 := by
      rw [prepare_integrator_resize_eq, if_neg (not_not.mpr hsize)]
    obtain ⟨n, hn⟩ := Option.isSome_iff_exists.mp hvec
    unfold _nc_hipert_first_order_prepare_integrator
    simp only []
    rw [hres]
    simp only [hn, hsel2, if_true, hflag2, sundials_run_ok flag_ok hok, List.singleton_append]
    refine ⟨_, rfl, rfl, ?_, rfl⟩
    show some (SundialsCall.Create :: cvode_init_calls fo2)
      ≠ fo2.cvode.map (fun l => l ++ reinit_calls)
    intro he
    cases hcv : fo2.cvode with
    | none => rw [hcv] at he; simp at he
    | some l =>
      rw [hcv] at he
      simp only [Option.map_some', Option.some.injEq] at he
      have := congrArg List.reverse he
      simp [cvode_init_calls, reinit_calls] at this

theorem cvode_init_test_inverted_witness :
    (∀ fo1, (_nc_hipert_first_order_prepare_integrator sample_integ sample_flag_ok
          sample_cvode_fo).state = some fo1 →
        fo1.cvode = none ∧ fo1.cvode_init = false)
      ∧ ∃ fo3, _nc_hipert_first_order_prepare_integrator sample_integ sample_flag_ok
            (sample_cvode_ready_fo [SundialsCall.Create]) = .returned fo3
          ∧ fo3.cvode = some (SundialsCall.Create
              :: cvode_init_calls (sample_cvode_ready_fo [SundialsCall.Create]))
          ∧ fo3.cvode ≠ (sample_cvode_ready_fo [SundialsCall.Create]).cvode.map
              (fun l => l ++ reinit_calls)
          ∧ fo3.cvode_init = true :=
  cvode_init_test_inverted sample_integ sample_flag_ok sample_cvode_fo
    (sample_cvode_ready_fo [SundialsCall.Create]) rfl rfl rfl rfl rfl rfl rfl (fun _ _ => rfl)

/-- The case ARKODE of `_nc_hipert_first_order_prepare_integrator`, the sibling
of the case CVODE, with every SUNDIALS call on a handle succeeding: from an
init flag that is FALSE the handle is made by `ARKodeCreate`, set up with the
tolerances, the step count 0, the banded solver of the cached bandwidth pair,
and the flag is set; from a flag that is set, at the size of the table, the
stored handle is reinitialized and the flag stays set. -/
theorem arkode_prepare_ok (k : NcHIPertFirstOrderInteg)
    (flag_ok : Option (List SundialsCall) → SundialsCall → Bool)
    (fo fo2 : NcHIPertFirstOrderPrivate) (h : List SundialsCall)
    (hk : k.WellFormed)
    (hsel : fo.integ = k.ARKODE) (hflag : fo.arkode_init = false)
    (hvec : fo.cur_sys_size ≠ fo.vars.length ∨ fo.abstol_v.isSome = true)
    (hsel2 : fo2.integ = k.ARKODE) (hh : fo2.arkode = some h) (hflag2 : fo2.arkode_init = true)
    (hsize : fo2.cur_sys_size = fo2.vars.length) (hvec2 : fo2.abstol_v.isSome = true)
    (hok : ∀ h2 call, flag_ok (some h2) call = true) :
    (∃ fo1, _nc_hipert_first_order_prepare_integrator k flag_ok fo = .returned fo1
        ∧ fo1.arkode = some [.Create, .Init, .SVtolerances, .SetMaxNumSteps 0,
            .Band fo.vars.length fo.mupper fo.mlower, .DlsSetDenseJacFn, .SetLinear 1,
            .SetOrder 7, .SetInitStep]
        ∧ fo1.arkode_init = true)
      ∧ ∃ fo3, _nc_hipert_first_order_prepare_integrator k flag_ok fo2 = .returned fo3
          ∧ fo3.arkode = some (h ++ [.ReInit, .SetInitStep])
          ∧ fo3.arkode_init = true := by
  have hne : k.ARKODE ≠ k.CVODE := fun e => hk.1 e.symm
  constructor
  · have hfr := prepare_integrator_resize_frame fo
    have hi : (prepare_integrator_resize fo).arkode_init = false := by
      rw [prepare_integrator_resize_eq]
      split_ifs <;> simp [hflag]
    have hs := prepare_integrator_resize_size fo
    have hv := prepare_integrator_resize_vec fo hvec
    obtain ⟨n, hn⟩ := Option.isSome_iff_exists.mp hv
    unfold _nc_hipert_first_order_prepare_integrator
    simp only []
    simp only [hn, hfr.1, hsel, hne, if_false, hi, Bool.not_false, if_true,
      sundials_run_ok flag_ok hok, List.singleton_append]
    refine ⟨_, rfl, ?_, rfl⟩
    show some (SundialsCall.Create :: arkode_init_calls (prepare_integrator_resize fo)) = _
    simp only [arkode_init_calls, hs, hfr.2.2.1, hfr.2.2.2]
  · have hres : prepare_integrator_resize fo2 = fo2 := by
      rw [prepare_integrator_resize_eq, if_neg (not_not.mpr hsize)]
    obtain ⟨n, hn⟩ := Option.isSome_iff_exists.mp hvec2
    unfold _nc_hipert_first_order_prepare_integrator
    simp only []
    rw [hres]
    simp only [hn, hsel2, hne, if_false, hflag2, Bool.not_true, Bool.false_eq_true, hh,
      sundials_run_ok flag_ok hok, if_true]
    exact ⟨_, rfl, rfl, rfl⟩

theorem sundials_run_isSome (flag_ok : Option (List SundialsCall) → SundialsCall → Bool) :
    ∀ (calls : List SundialsCall) (h : Option (List SundialsCall)),
      (sundials_run flag_ok h calls).1.isSome = h.isSome := by
  intro calls
  induction calls with
  | nil => intro h; rfl
  | cons call rest ih =>
    intro h
    unfold sundials_run
    split_ifs
    · rw [ih]
      cases h <;> rfl
    · cases h <;> rfl

theorem integInv_resize (fo : NcHIPertFirstOrderPrivate) (hinv : IntegInv fo) :
    IntegInv (prepare_integrator_resize fo) := by
  rw [prepare_integrator_resize_eq]
  by_cases hc : fo.cur_sys_size ≠ fo.vars.length
  · rw [if_pos hc]
    refine ⟨rfl, Or.inr rfl, ?_, ?_⟩
    · intro h
      have h2 : (if fo.cvode.isSome = true then false else fo.cvode_init) = true := h
      split_ifs at h2 with h3
      exact absurd (hinv.2.2.1 h2) h3
    · intro h
      have h2 : (if fo.arkode.isSome = true then false else fo.arkode_init) = true := h
      split_ifs at h2 with h3
      exact absurd (hinv.2.2.2 h2) h3
  · rw [if_neg hc]
    exact hinv

theorem prepare_integrator_resize_cleared (fo : NcHIPertFirstOrderPrivate) (hinv : IntegInv fo)
    (hc : fo.cur_sys_size ≠ fo.vars.length) :
    (prepare_integrator_resize fo).cvode = none
      ∧ (prepare_integrator_resize fo).cvode_init = false
      ∧ (prepare_integrator_resize fo).arkode = none
      ∧ (prepare_integrator_resize fo).arkode_init = false
      ∧ (prepare_integrator_resize fo).y = some fo.vars.length
      ∧ (prepare_integrator_resize fo).abstol_v = some fo.vars.length
      ∧ (prepare_integrator_resize fo).cur_sys_size = fo.vars.length := by
  have hi := integInv_resize fo hinv
  have e1 : (prepare_integrator_resize fo).cvode = none := by
    rw [prepare_integrator_resize_eq, if_pos hc]
  have e2 : (prepare_integrator_resize fo).arkode = none := by
    rw [prepare_integrator_resize_eq, if_pos hc]
  refine ⟨e1, ?_, e2, ?_, ?_, ?_, prepare_integrator_resize_size fo⟩
  · cases hf : (prepare_integrator_resize fo).cvode_init with
    | false => rfl
    | true =>
      have := hi.2.2.1 hf
      rw [e1] at this
      simp at this
  · cases hf : (prepare_integrator_resize fo).arkode_init with
    | false => rfl
    | true =>
      have := hi.2.2.2 hf
      rw [e2] at this
      simp at this
  · rw [prepare_integrator_resize_eq, if_pos hc]
  · rw [prepare_integrator_resize_eq, if_pos hc]

theorem prepare_integrator_resize_idem (fo : NcHIPertFirstOrderPrivate) :
    prepare_integrator_resize (prepare_integrator_resize fo) = prepare_integrator_resize fo := by
  have hs := prepare_integrator_resize_size fo
  have hv := (prepare_integrator_resize_frame fo).2.1
  rw [prepare_integrator_resize_eq (prepare_integrator_resize fo), hs, hv]
  simp

theorem prepare_integrator_state (k : NcHIPertFirstOrderInteg)
    (flag_ok : Option (List SundialsCall) → SundialsCall → Bool)
    (fo fo1 : NcHIPertFirstOrderPrivate) (hinv : IntegInv fo)
    (hst : (_nc_hipert_first_order_prepare_integrator k flag_ok fo).state = some fo1) :
    ∃ cv ci ar ai,
      fo1 = { prepare_integrator_resize fo with
              cvode := cv, cvode_init := ci, arkode := ar, arkode_init := ai }
        ∧ (ci = true → cv.isSome = true) ∧ (ai = true → ar.isSome = true)
        ∧ (prepare_integrator_resize fo).abstol_v.isSome = true := by
  have hi := integInv_resize fo hinv
  unfold _nc_hipert_first_order_prepare_integrator at hst
  simp only [] at hst
  generalize prepare_integrator_resize fo = fo2 at hst hi ⊢
  split at hst
  · simp [IntegOutcome.state] at hst
  · rename_i n hn
    have hv : fo2.abstol_v.isSome = true := by rw [hn]; rfl
    split_ifs at hst with h1 h2 h3 h4 h5 h6 h7
    all_goals first
      | (simp only [IntegOutcome.state, Option.some.injEq] at hst
         subst hst
         refine ⟨_, _, _, _, rfl, ?_, ?_, hv⟩
         · first
           | (intro _; rw [sundials_run_isSome]; rfl)
           | (intro hh; rw [sundials_run_isSome]; exact hi.2.2.1 hh)
           | exact hi.2.2.1
         · first
           | (intro _; rw [sundials_run_isSome]; rfl)
           | (intro hh; rw [sundials_run_isSome]; exact hi.2.2.2 hh)
           | exact hi.2.2.2)
      | simp [IntegOutcome.state] at hst

/-- C16 (divergence): in a state that keeps `IntegInv`, when the number of
variables differs from `cur_sys_size` the size block of
`_nc_hipert_first_order_prepare_integrator` leaves no backend handle and no
init flag set, both vectors made anew with the length of the table, and
`cur_sys_size` equal to the number of variables; the rest of the call works on
that state, and every call that returns leaves that size and those vectors.
With ARKODE selected the call then treats the backend as Uninitialized: it
runs `ARKodeCreate` and the whole setup.  With CVODE selected it does not: it
runs `CVodeReInit` and `CVodeSetInitStep` on the NULL handle and ends in the
state the size block left, without a handle and with the init flag FALSE. -/
theorem prepare_integrator_size_block (k : NcHIPertFirstOrderInteg)
    (flag_ok : Option (List SundialsCall) → SundialsCall → Bool)
    (fo : NcHIPertFirstOrderPrivate) (hinv : IntegInv fo) (hk : k.WellFormed) :
    (fo.cur_sys_size ≠ fo.vars.length →
        (prepare_integrator_resize fo).cvode = none
          ∧ (prepare_integrator_resize fo).cvode_init = false
          ∧ (prepare_integrator_resize fo).arkode = none
          ∧ (prepare_integrator_resize fo).arkode_init = false
          ∧ (prepare_integrator_resize fo).y = some fo.vars.length
          ∧ (prepare_integrator_resize fo).abstol_v = some fo.vars.length
          ∧ (prepare_integrator_resize fo).cur_sys_size = fo.vars.length)
      ∧ _nc_hipert_first_order_prepare_integrator k flag_ok fo
          = _nc_hipert_first_order_prepare_integrator k flag_ok (prepare_integrator_resize fo)
      ∧ (∀ fo1, (_nc_hipert_first_order_prepare_integrator k flag_ok fo).state = some fo1 →
          fo1.cur_sys_size = fo.vars.length ∧ fo1.vars = fo.vars
            ∧ fo1.y = some fo.vars.length ∧ fo1.abstol_v = some fo.vars.length
            ∧ IntegInv fo1)
      ∧ (fo.cur_sys_size ≠ fo.vars.length → fo.integ = k.ARKODE →
          _nc_hipert_first_order_prepare_integrator k flag_ok fo
            = if (sundials_run flag_ok (some [SundialsCall.Create])
                  (arkode_init_calls (prepare_integrator_resize fo))).2
              then .returned
                { prepare_integrator_resize fo with
                  arkode := (sundials_run flag_ok (some [SundialsCall.Create])
                    (arkode_init_calls (prepare_integrator_resize fo))).1
                  arkode_init := true }
              else .check_failed
                { prepare_integrator_resize fo with
                  arkode := (sundials_run flag_ok (some [SundialsCall.Create])
                    (arkode_init_calls (prepare_integrator_resize fo))).1 })
      ∧ (fo.cur_sys_size ≠ fo.vars.length → fo.integ = k.CVODE →
          _nc_hipert_first_order_prepare_integrator k flag_ok fo
            = if (sundials_run flag_ok none reinit_calls).2
              then .returned (prepare_integrator_resize fo)
              else .check_failed (prepare_integrator_resize fo)) := by
  refine ⟨prepare_integrator_resize_cleared fo hinv, ?_, ?_, ?_, ?_⟩
  · unfold _nc_hipert_first_order_prepare_integrator
    simp only []
    rw [prepare_integrator_resize_idem]
  · intro fo1 hst
    obtain ⟨cv, ci, ar, ai, hfo1, hcv, har, hv⟩ := prepare_integrator_state k flag_ok fo fo1 hinv hst
    have hi := integInv_resize fo hinv
    have hs := prepare_integrator_resize_size fo
    have hvars := (prepare_integrator_resize_frame fo).2.1
    have ha : (prepare_integrator_resize fo).abstol_v = some fo.vars.length := by
      rcases hi.2.1 with hn | hn
      · rw [hn] at hv
        simp at hv
      · rw [hn, hs]
    have hy : (prepare_integrator_resize fo).y = some fo.vars.length := by
      rw [hi.1, ha]
    subst hfo1
    refine ⟨hs, hvars, hy, ha, ?_, ?_, hcv, har⟩
    · exact hi.1
    · exact hi.2.1
  · intro hsize hsel
    obtain ⟨_, _, _, hai, _, hab, _⟩ := prepare_integrator_resize_cleared fo hinv hsize
    have hint := (prepare_integrator_resize_frame fo).1
    have hne : k.ARKODE ≠ k.CVODE := fun e => hk.1 e.symm
    unfold _nc_hipert_first_order_prepare_integrator
    simp only [hab, hint, hsel, hne, if_false, hai, Bool.not_false, if_true]
  · intro hsize hsel
    obtain ⟨hc, hci, _, _, _, hab, _⟩ := prepare_integrator_resize_cleared fo hinv hsize
    have hint := (prepare_integrator_resize_frame fo).1
    rw [hsel] at hint
    unfold _nc_hipert_first_order_prepare_integrator
    simp only []
    generalize prepare_integrator_resize fo = fo2 at hc hci hab hint ⊢
    cases fo2
    simp only at hc hci hab hint
    subst hc hci hab hint
    simp [sundials_run_none]

theorem prepare_integrator_size_block_witness :
    (IntegInv sample_cvode_fo ∧ sample_integ.WellFormed
      ∧ sample_cvode_fo.cur_sys_size ≠ sample_cvode_fo.vars.length
      ∧ sample_cvode_fo.integ = sample_integ.CVODE
      ∧ (_nc_hipert_first_order_prepare_integrator sample_integ sample_flag_ok
            sample_cvode_fo).state.map
          (fun fo => (fo.cvode, fo.cvode_init, fo.cur_sys_size, fo.y, fo.abstol_v))
          = some (none, false, 1, some 1, some 1))
      ∧ _nc_hipert_first_order_prepare_integrator sample_integ sample_flag_ok sample_cvode_fo
          = (if (sundials_run sample_flag_ok none reinit_calls).2
              then .returned (prepare_integrator_resize sample_cvode_fo)
              else .check_failed (prepare_integrator_resize sample_cvode_fo))
      ∧ (IntegInv sample_stale_fo
        ∧ sample_stale_fo.cur_sys_size ≠ sample_stale_fo.vars.length
        ∧ sample_stale_fo.integ = sample_integ.ARKODE
        ∧ (_nc_hipert_first_order_prepare_integrator sample_integ sample_flag_ok
              sample_stale_fo).state.map
            (fun fo => (fo.arkode.map (fun l => l.take 2), fo.arkode_init, fo.cur_sys_size))
            = some (some [SundialsCall.Create, SundialsCall.Init], true, 1))
      ∧ (prepare_integrator_resize sample_stale_fo).cvode = none
      ∧ (prepare_integrator_resize sample_stale_fo).cvode_init = false
      ∧ (prepare_integrator_resize sample_stale_fo).arkode = none
      ∧ (prepare_integrator_resize sample_stale_fo).arkode_init = false :=
  ⟨by decide,
    (prepare_integrator_size_block sample_integ sample_flag_ok sample_cvode_fo (by decide)
      (by decide)).2.2.2.2 (by decide) rfl,
    by decide,
    ((prepare_integrator_size_block sample_integ sample_flag_ok sample_stale_fo (by decide)
      (by decide)).1 (by decide)).1,
    ((prepare_integrator_size_block sample_integ sample_flag_ok sample_stale_fo (by decide)
      (by decide)).1 (by decide)).2.1,
    ((prepare_integrator_size_block sample_integ sample_flag_ok sample_stale_fo (by decide)
      (by decide)).1 (by decide)).2.2.1,
    ((prepare_integrator_size_block sample_integ sample_flag_ok sample_stale_fo (by decide)
      (by decide)).1 (by decide)).2.2.2.1⟩

theorem set_grav_init_sample :
    nc_hipert_first_order_set_grav sample_setters sample_codes 10
      (nc_hipert_first_order_init sample_integ 0 3) (some single_grav) = .done sample_unset_fo := by
  rfl

theorem scan_split_fuel (c : NcHIPertGravSElem) (g : NcHIPertGravInfo)
    (T : NcHIPertGravTScalarInfo) (fuel : Nat) :
    ∀ (kept rest : List Int) (subs : Bool) (out : List Int) (s : Bool),
      scan_split c g T fuel kept rest subs = .done (out, s) →
      out.length + 1 ≤ fuel + kept.length
        ∧ (subs = false → s = true → out.length + 2 ≤ fuel + kept.length) := by
  induction fuel with
  | zero => intro kept rest subs out s h; simp [scan_split] at h
  | succ n ih =>
    intro kept rest subs out s h
    cases rest with
    | nil =>
      simp only [scan_split, Outcome.done.injEq, Prod.mk.injEq] at h
      rw [← h.1, ← h.2]
      refine ⟨by omega, ?_⟩
      intro h1 h2
      rw [h1] at h2
      exact absurd h2 (by decide)
    | cons v rest =>
      simp only [scan_split] at h
      by_cases hv : v < 0
      · simp only [hv, if_true] at h
        cases hsw : solve_deps_switch c g T v with
        | none => rw [hsw] at h; exact Outcome.noConfusion h
        | some b =>
          rw [hsw] at h
          have := (ih kept (rest ++ b) true out s h).1
          exact ⟨by omega, fun _ _ => by omega⟩
      · simp only [hv, if_false] at h
        have := ih (kept ++ [v]) rest subs out s h
        rw [List.length_append, List.length_singleton] at this
        exact ⟨by omega, fun h1 h2 => by have := this.2 h1 h2; omega⟩

theorem scan_split_not_too_many (c : NcHIPertGravSElem) (g : NcHIPertGravInfo)
    (T : NcHIPertGravTScalarInfo) (fuel : Nat) :
    ∀ (kept rest : List Int) (subs : Bool),
      scan_split c g T fuel kept rest subs ≠ .too_many_levels := by
  induction fuel with
  | zero => intro kept rest subs h; simp [scan_split] at h
  | succ n ih =>
    intro kept rest subs h
    cases rest with
    | nil => simp [scan_split] at h
    | cons v rest =>
      simp only [scan_split] at h
      by_cases hv : v < 0
      · simp only [hv, if_true] at h
        cases hsw : solve_deps_switch c g T v with
        | none => rw [hsw] at h; exact Outcome.noConfusion h
        | some b =>
          rw [hsw] at h
          exact ih _ _ _ h
      · simp only [hv, if_false] at h
        exact ih _ _ _ h

theorem solve_deps_scan_zero (c : NcHIPertGravSElem) (g : NcHIPertGravInfo)
    (T : NcHIPertGravTScalarInfo) (fuel : Nat) (deps : List Int) (subs : Bool) :
    solve_deps_scan c g T fuel deps 0 subs = scan_split c g T fuel [] deps subs := by
  have hsc := solve_deps_scan_eq_split c g T fuel [] deps subs
  simpa using hsc

theorem solve_deps_after_scan (c : NcHIPertGravSElem) (g : NcHIPertGravInfo)
    (T : NcHIPertGravTScalarInfo) (fuel : Nat) (deps deps1 : List Int) (subs : Bool)
    (h : solve_deps_scan c g T fuel deps 0 false = .done (deps1, subs)) :
    (∀ x ∈ deps1, 0 ≤ x)
      ∧ (∀ (fuel2 : Nat) (s : Bool), deps1.length < fuel2 →
          solve_deps_scan c g T fuel2 deps1 0 s = .done (deps1, s))
      ∧ _nc_hipert_first_order_solve_deps c g T (fuel + 1) deps 0
          = .done (solve_deps_sort_uniq deps1)
      ∧ solve_deps_depth c g T (fuel + 1) deps 0 = (if subs then 1 else 0) := by
  have h2 := h
  rw [solve_deps_scan_zero] at h2
  have hnn : ∀ x ∈ deps1, 0 ≤ x :=
    scan_split_done_nonneg c g T fuel [] deps false deps1 subs h2 (by simp)
  have hre : ∀ (fuel2 : Nat) (s : Bool), deps1.length < fuel2 →
      solve_deps_scan c g T fuel2 deps1 0 s = .done (deps1, s) := by
    intro fuel2 s hf
    rw [solve_deps_scan_zero]
    have := scan_split_nonneg c g T deps1 [] s fuel2 hnn hf
    simpa using this
  have hfuel := scan_split_fuel c g T fuel [] deps false deps1 subs h2
  refine ⟨hnn, hre, ?_, ?_⟩
  · rw [_nc_hipert_first_order_solve_deps]
    simp only [gt_iff_lt, show ¬ (9 < 0) by decide, if_false, h]
    cases subs with
    | false => simp
    | true =>
      have hf2 := hfuel.2 rfl rfl
      simp only [List.length_nil, Nat.add_zero] at hf2
      obtain ⟨m, rfl⟩ : ∃ m, fuel = m + 1 := ⟨fuel - 1, by omega⟩
      simp only [if_true]
      rw [_nc_hipert_first_order_solve_deps]
      simp only [gt_iff_lt, show ¬ (9 < 0 + 1) by decide, if_false, hre m false (by omega)]
      simp
  · rw [solve_deps_depth]
    simp only [gt_iff_lt, show ¬ (9 < 0) by decide, if_false, h]
    cases subs with
    | false => simp
    | true =>
      have hf2 := hfuel.2 rfl rfl
      simp only [List.length_nil, Nat.add_zero] at hf2
      obtain ⟨m, rfl⟩ : ∃ m, fuel = m + 1 := ⟨fuel - 1, by omega⟩
      simp only [if_true]
      rw [solve_deps_depth]
      simp only [gt_iff_lt, show ¬ (9 < 0 + 1) by decide, if_false, hre m false (by omega)]
      simp

/-- C18: a run of `_nc_hipert_first_order_solve_deps` started at depth 0 never
ends in the branch `r > 9` and is never entered at a depth above 1; when the
scan at depth 0 ends, its array holds no placeholder, a scan of that array
changes neither the array nor the flag `subs` (so the call at depth 1 does no
substitution), and the run returns that array sorted and without repetitions. -/
theorem solve_deps_depth_at_most_one (c : NcHIPertGravSElem) (ginfo : NcHIPertGravInfo)
    (Tsinfo : NcHIPertGravTScalarInfo) (fuel : Nat) (deps : List Int) :
    _nc_hipert_first_order_solve_deps c ginfo Tsinfo fuel deps 0 ≠ .too_many_levels
      ∧ solve_deps_depth c ginfo Tsinfo fuel deps 0 ≤ 1
      ∧ ∀ (deps1 : List Int) (subs : Bool),
          solve_deps_scan c ginfo Tsinfo fuel deps 0 false = .done (deps1, subs) →
          (∀ x ∈ deps1, 0 ≤ x)
            ∧ (∀ (fuel2 : Nat) (s : Bool), deps1.length < fuel2 →
                solve_deps_scan c ginfo Tsinfo fuel2 deps1 0 s = .done (deps1, s))
            ∧ _nc_hipert_first_order_solve_deps c ginfo Tsinfo (fuel + 1) deps 0
                = .done (solve_deps_sort_uniq deps1)
            ∧ solve_deps_depth c ginfo Tsinfo (fuel + 1) deps 0 = (if subs then 1 else 0) := by
  refine ⟨?_, ?_, fun deps1 subs h => solve_deps_after_scan c ginfo Tsinfo fuel deps deps1 subs h⟩
  · cases fuel with
    | zero => simp [_nc_hipert_first_order_solve_deps]
    | succ n =>
      cases hsc : solve_deps_scan c ginfo Tsinfo n deps 0 false with
      | done res =>
        obtain ⟨deps1, subs⟩ := res
        rw [(solve_deps_after_scan c ginfo Tsinfo n deps deps1 subs hsc).2.2.1]
        exact fun h => Outcome.noConfusion h
      | too_many_levels =>
        rw [solve_deps_scan_zero] at hsc
        exact absurd hsc (scan_split_not_too_many c ginfo Tsinfo n [] deps false)
      | not_reached =>
        rw [_nc_hipert_first_order_solve_deps]
        simp [hsc]
      | out_of_fuel =>
        rw [_nc_hipert_first_order_solve_deps]
        simp [hsc]
  · cases fuel with
    | zero => simp [solve_deps_depth]
    | succ n =>
      cases hsc : solve_deps_scan c ginfo Tsinfo n deps 0 false with
      | done res =>
        obtain ⟨deps1, subs⟩ := res
        rw [(solve_deps_after_scan c ginfo Tsinfo n deps deps1 subs hsc).2.2.2]
        split_ifs <;> omega
      | too_many_levels =>
        rw [solve_deps_depth]
        simp [hsc]
      | not_reached =>
        rw [solve_deps_depth]
        simp [hsc]
      | out_of_fuel =>
        rw [solve_deps_depth]
        simp [hsc]

theorem foldl_inv {α β : Type} (f : β → α → β) (Q : β → Prop) :
    ∀ (l : List α), (∀ b x, x ∈ l → Q b → Q (f b x)) → ∀ b, Q b → Q (l.foldl f b) := by
  intro l
  induction l with
  | nil => intro _ b hb; exact hb
  | cons a l ih =>
    intro h b hb
    simp only [List.foldl_cons]
    exact ih (fun b x hx hq => h b x (List.mem_cons_of_mem _ hx) hq) _
      (h b a (List.mem_cons_self _ _) hb)

theorem arrange_bandwidth_row_inv (perm_inv : List Int) (i : Nat) (deps : List Int)
    (Q1 Q2 : Int → Prop)
    (h1 : ∀ d ∈ deps, Q1 (new_position perm_inv d.toNat - (i : Int)))
    (h2 : ∀ d ∈ deps, Q2 ((i : Int) - new_position perm_inv d.toNat))
    (bw : Int × Int) (hb : Q1 bw.1 ∧ Q2 bw.2) :
    Q1 (arrange_bandwidth_row perm_inv i deps bw).1
      ∧ Q2 (arrange_bandwidth_row perm_inv i deps bw).2 := by
  unfold arrange_bandwidth_row
  refine foldl_inv _ (fun b => Q1 b.1 ∧ Q2 b.2) deps ?_ bw hb
  intro b d hd hq
  constructor
  · show Q1 (max b.1 (perm_inv.getD d.toNat 0 - 1 - (i : Int)))
    rcases max_choice b.1 (perm_inv.getD d.toNat 0 - 1 - (i : Int)) with e | e
    · rw [e]; exact hq.1
    · rw [e]; exact h1 d hd
  · show Q2 (max b.2 ((i : Int) - (perm_inv.getD d.toNat 0 - 1)))
    rcases max_choice b.2 ((i : Int) - (perm_inv.getD d.toNat 0 - 1)) with e | e
    · rw [e]; exact hq.2
    · rw [e]; exact h2 d hd

theorem arrange_bandwidth_inv (vars : List NcHIPertFirstOrderVar) (perm perm_inv : List Int)
    (Q1 Q2 : Int → Prop) (h0 : Q1 0 ∧ Q2 0)
    (h1 : ∀ i, i < vars.length → ∀ d ∈ (vars.getD (perm.getD i 0 - 1).toNat default).deps,
      Q1 (new_position perm_inv d.toNat - (i : Int))
        ∧ Q2 ((i : Int) - new_position perm_inv d.toNat)) :
    Q1 (arrange_bandwidth vars perm perm_inv).1 ∧ Q2 (arrange_bandwidth vars perm perm_inv).2 := by
  unfold arrange_bandwidth
  refine foldl_inv _ (fun b => Q1 b.1 ∧ Q2 b.2) (List.range vars.length) ?_ (0, 0) h0
  intro b i hi hq
  have hi2 := List.mem_range.mp hi
  exact arrange_bandwidth_row_inv perm_inv i _ Q1 Q2 (fun d hd => (h1 i hi2 d hd).1)
    (fun d hd => (h1 i hi2 d hd).2) b hq

theorem arrange_bandwidth_nonneg (vars : List NcHIPertFirstOrderVar) (perm perm_inv : List Int) :
    0 ≤ (arrange_bandwidth vars perm perm_inv).1 ∧ 0 ≤ (arrange_bandwidth vars perm perm_inv).2 := by
  unfold arrange_bandwidth
  refine foldl_inv _ (fun (b : Int × Int) => 0 ≤ b.1 ∧ 0 ≤ b.2) (List.range vars.length) ?_
    (0, 0) ⟨le_refl _, le_refl _⟩
  intro b i _ hq
  have h := (arrange_bandwidth_row_bound perm_inv i
    (vars.getD (perm.getD i 0 - 1).toNat default).deps b).1
  exact ⟨le_trans hq.1 h.1, le_trans hq.2 h.2⟩

/-- C19: when `perm` and `perm_inv` hold mutually inverse permutations of
`1 .. n`, `n >= 1`, and every resolved dependency is in `0 .. n - 1`, the
bandwidth pair cached by `_nc_hipert_first_order_arrange_vars` satisfies
`0 <= mupper <= n - 1` and `0 <= mlower <= n - 1`; `mupper` is 0 or equals
`pos (d) - pos (k)` for a variable `k` and a dependency `d` of `k`, `mlower` is
0 or equals `pos (k) - pos (d)` for such a pair, with `pos (x) = perm_inv[x] - 1`;
and both are 0 when every dependency of every variable is the variable
itself. -/
theorem arrange_vars_bandwidth_range (fo : NcHIPertFirstOrderPrivate)
    (perm perm_inv : List Int)
    (hinv : MutuallyInverse fo.vars.length perm perm_inv) (hdeps : DepsInRange fo.vars)
    (hn : 1 ≤ fo.vars.length) :
    (0 ≤ (arrange_vars_from fo perm perm_inv).mupper
        ∧ (arrange_vars_from fo perm perm_inv).mupper ≤ (fo.vars.length : Int) - 1)
      ∧ (0 ≤ (arrange_vars_from fo perm perm_inv).mlower
        ∧ (arrange_vars_from fo perm perm_inv).mlower ≤ (fo.vars.length : Int) - 1)
      ∧ ((arrange_vars_from fo perm perm_inv).mupper = 0
        ∨ ∃ (k : Nat) (d : Int), k < fo.vars.length ∧ d ∈ (fo.vars.getD k default).deps
            ∧ (arrange_vars_from fo perm perm_inv).mupper
              = new_position perm_inv d.toNat - new_position perm_inv k)
      ∧ ((arrange_vars_from fo perm perm_inv).mlower = 0
        ∨ ∃ (k : Nat) (d : Int), k < fo.vars.length ∧ d ∈ (fo.vars.getD k default).deps
            ∧ (arrange_vars_from fo perm perm_inv).mlower
              = new_position perm_inv k - new_position perm_inv d.toNat)
      ∧ ((∀ (k : Nat), k < fo.vars.length → ∀ d ∈ (fo.vars.getD k default).deps, d = (k : Int)) →
          (arrange_vars_from fo perm perm_inv).mupper = 0
            ∧ (arrange_vars_from fo perm perm_inv).mlower = 0) := by
  have hup : (arrange_vars_from fo perm perm_inv).mupper
      = (arrange_bandwidth (arrange_write_index perm fo.vars 0) perm perm_inv).1 := rfl
  have hlo : (arrange_vars_from fo perm perm_inv).mlower
      = (arrange_bandwidth (arrange_write_index perm fo.vars 0) perm perm_inv).2 := rfl
  rw [hup, hlo]
  have key := arrange_bandwidth_inv (arrange_write_index perm fo.vars 0) perm perm_inv
    (fun x => x ≤ (fo.vars.length : Int) - 1
      ∧ (x = 0 ∨ ∃ (k : Nat) (d : Int), k < fo.vars.length ∧ d ∈ (fo.vars.getD k default).deps
          ∧ x = new_position perm_inv d.toNat - new_position perm_inv k)
      ∧ ((∀ (k : Nat), k < fo.vars.length → ∀ d ∈ (fo.vars.getD k default).deps, d = (k : Int)) →
          x = 0))
    (fun x => x ≤ (fo.vars.length : Int) - 1
      ∧ (x = 0 ∨ ∃ (k : Nat) (d : Int), k < fo.vars.length ∧ d ∈ (fo.vars.getD k default).deps
          ∧ x = new_position perm_inv k - new_position perm_inv d.toNat)
      ∧ ((∀ (k : Nat), k < fo.vars.length → ∀ d ∈ (fo.vars.getD k default).deps, d = (k : Int)) →
          x = 0))
    ⟨⟨by omega, Or.inl rfl, fun _ => rfl⟩, ⟨by omega, Or.inl rfl, fun _ => rfl⟩⟩
    (by
      intro i hi d hd
      rw [arrange_write_index_length] at hi
      rw [arrange_write_index_deps] at hd
      obtain ⟨_, _, h3, h4⟩ := hinv
      obtain ⟨hp1, hp2, hp3⟩ := h3 i hi
      have hkk : (perm.getD i 0 - 1).toNat < fo.vars.length := by omega
      have hpos : new_position perm_inv (perm.getD i 0 - 1).toNat = (i : Int) := by
        unfold new_position
        rw [hp3]
        omega
      have hmem : fo.vars.getD (perm.getD i 0 - 1).toNat default ∈ fo.vars := by
        rw [List.getD_eq_getElem _ _ hkk]
        exact List.getElem_mem _
      obtain ⟨hd0, hd1⟩ := hdeps _ hmem d hd
      have hdn : d.toNat < fo.vars.length := by omega
      obtain ⟨hq1, hq2, _⟩ := h4 d.toNat hdn
      have hP : 0 ≤ new_position perm_inv d.toNat
          ∧ new_position perm_inv d.toNat ≤ (fo.vars.length : Int) - 1 := by
        unfold new_position
        constructor <;> omega
      have hself : (∀ (k : Nat), k < fo.vars.length → ∀ d ∈ (fo.vars.getD k default).deps,
          d = (k : Int)) → new_position perm_inv d.toNat = (i : Int) := by
        intro hall
        have hdk := hall _ hkk d hd
        have : d.toNat = (perm.getD i 0 - 1).toNat := by omega
        rw [this, hpos]
      have hmax1 : new_position perm_inv d.toNat - (i : Int) ≤ (fo.vars.length : Int) - 1 := by
        omega
      have hmax2 : (i : Int) - new_position perm_inv d.toNat ≤ (fo.vars.length : Int) - 1 := by
        omega
      refine ⟨⟨hmax1, Or.inr ⟨_, d, hkk, hd, by rw [hpos]⟩, fun hall => ?_⟩,
        ⟨hmax2, Or.inr ⟨_, d, hkk, hd, by rw [hpos]⟩, fun hall => ?_⟩⟩
      · have := hself hall
        omega
      · have := hself hall
        omega)
  have hnn := arrange_bandwidth_nonneg (arrange_write_index perm fo.vars 0) perm perm_inv
  exact ⟨⟨hnn.1, key.1.1⟩, ⟨hnn.2, key.2.1⟩, key.1.2.1, key.2.2.1,
    fun hall => ⟨key.1.2.2 hall, key.2.2.2 hall⟩⟩


theorem arrange_vars_bandwidth_range_witness :
    (0 ≤ (arrange_vars_from sample_path_fo [2, 3, 1] [3, 1, 2]).mupper
        ∧ (arrange_vars_from sample_path_fo [2, 3, 1] [3, 1, 2]).mupper
          ≤ (sample_path_fo.vars.length : Int) - 1)
      ∧ (0 ≤ (arrange_vars_from sample_path_fo [2, 3, 1] [3, 1, 2]).mlower
        ∧ (arrange_vars_from sample_path_fo [2, 3, 1] [3, 1, 2]).mlower
          ≤ (sample_path_fo.vars.length : Int) - 1)
      ∧ ((arrange_vars_from sample_path_fo [2, 3, 1] [3, 1, 2]).mupper = 0
        ∨ ∃ (k : Nat) (d : Int), k < sample_path_fo.vars.length
            ∧ d ∈ (sample_path_fo.vars.getD k default).deps
            ∧ (arrange_vars_from sample_path_fo [2, 3, 1] [3, 1, 2]).mupper
              = new_position [3, 1, 2] d.toNat - new_position [3, 1, 2] k)
      ∧ ((arrange_vars_from sample_path_fo [2, 3, 1] [3, 1, 2]).mlower = 0
        ∨ ∃ (k : Nat) (d : Int), k < sample_path_fo.vars.length
            ∧ d ∈ (sample_path_fo.vars.getD k default).deps
            ∧ (arrange_vars_from sample_path_fo [2, 3, 1] [3, 1, 2]).mlower
              = new_position [3, 1, 2] k - new_position [3, 1, 2] d.toNat)
      ∧ ((∀ (k : Nat), k < sample_path_fo.vars.length →
            ∀ d ∈ (sample_path_fo.vars.getD k default).deps, d = (k : Int)) →
          (arrange_vars_from sample_path_fo [2, 3, 1] [3, 1, 2]).mupper = 0
            ∧ (arrange_vars_from sample_path_fo [2, 3, 1] [3, 1, 2]).mlower = 0) :=
  arrange_vars_bandwidth_range sample_path_fo [2, 3, 1] [3, 1, 2] (by decide) (by decide)
    (by decide)

end NcHIPertFirstOrder
